import Mathlib

/-!
# Verification of the CEGIS-based circuit rectifier

A shallow embedding of the rectifier's core (`circuit_types.py`, `encoder.py`,
`cegis.py`).  Z3 terms are modelled by the inductive `BExpr` with semantics
`evalB`; the two Z3 solving contexts of the CEGIS loop are modelled by an
abstract oracle function `List BExpr → Option (String → Bool)` returning a
completed model on a satisfiable assertion list and `none` on an unsatisfiable
one (`OracleValid`).  `bruteOracle` is one concrete valid oracle (exhaustive
search, first satisfying assignment in a fixed enumeration order), used to run
the loop on concrete instances.  Python exceptions (KeyError, IndexError,
AttributeError, ValueError) are modelled with `Option`/`Except`.
-/

/-- Mirror of `circuit_types.TruthTable`: a gate function as onset cubes,
each cube a string over '0', '1', '-'. Cubes are `List Char`. -/
structure TruthTable where
  num_inputs : Nat
  onset_cubes : List (List Char)
deriving DecidableEq

/-- The inner loop of `TruthTable.evaluate` (circuit_types.py lines 27-38) on
one cube, carrying the running position `i` of Python's `enumerate`:
'1' requires a true input, '0' a false input, '-' always matches.
Indexing `inputs[i]` out of range (only reached for a '0'/'1' character) is
Python's IndexError, modelled as `none`. -/
def cubeMatch (inputs : List Bool) : List Char → Nat → Option Bool
  | [], _ => some true
  | c :: cs, i =>
    if c = '1' then
      match inputs.get? i with
      | none => none
      | some v => if v then cubeMatch inputs cs (i + 1) else some false
    else if c = '0' then
      match inputs.get? i with
      | none => none
      | some v => if v then some false else cubeMatch inputs cs (i + 1)
    else cubeMatch inputs cs (i + 1)

/-- The outer loop of `TruthTable.evaluate`: first matching cube returns true,
no matching cube (or empty onset) returns false. -/
def evalCubes (inputs : List Bool) : List (List Char) → Option Bool
  | [] => some false
  | cube :: rest =>
    match cubeMatch inputs cube 0 with
    | none => none
    | some true => some true
    | some false => evalCubes inputs rest

/-- `TruthTable.evaluate` (circuit_types.py lines 25-39). -/
def TruthTable.evaluate (tt : TruthTable) (inputs : List Bool) : Option Bool :=
  evalCubes inputs tt.onset_cubes

/-- Mirror of `circuit_types.Gate`. -/
structure Gate where
  name : String
  inputs : List String
  truth_table : TruthTable
deriving DecidableEq

/-- `Gate.num_inputs` (circuit_types.py line 94). -/
def Gate.num_inputs (g : Gate) : Nat := g.inputs.length

/-- Mirror of `circuit_types.Circuit`. -/
structure Circuit where
  name : String
  primary_inputs : List String
  primary_outputs : List String
  gates : List Gate
deriving DecidableEq

/-- `Circuit.get_gate` (circuit_types.py lines 114-119): first gate with the
given output net name, else None. -/
def Circuit.get_gate (c : Circuit) (net : String) : Option Gate :=
  c.gates.find? (fun g => g.name == net)

/-- `Circuit.is_primary_input` (circuit_types.py lines 121-123). -/
def Circuit.is_primary_input (c : Circuit) (net : String) : Bool :=
  c.primary_inputs.contains net

/-- The dict `{g.name: g for g in self.gates}` built at the top of
`topological_sort`: on duplicate names the later gate overwrites the earlier
one, hence lookup in the reversed list. -/
def gateDict (c : Circuit) (n : String) : Option Gate :=
  c.gates.reverse.find? (fun g => g.name == n)

/-- Membership test `inp in gate_dict` (circuit_types.py line 133). -/
def isKey (c : Circuit) (n : String) : Bool := (gateDict c n).isSome

/-- The `in_degree`/`dependents` initialisation for one gate
(circuit_types.py lines 131-135): for each of its inputs that is produced by a
gate, bump the gate's in-degree and record the gate as a dependent of that
input. -/
def initStep (c : Circuit) (st : (String → Int) × (String → List String)) (g : Gate) :
    (String → Int) × (String → List String) :=
  g.inputs.foldl
    (fun st2 inp =>
      if isKey c inp then
        (fun m => if m = g.name then st2.1 m + 1 else st2.1 m,
         fun m => if m = inp then st2.2 m ++ [g.name] else st2.2 m)
      else st2)
    st

/-- The full `in_degree` and `dependents` maps, both starting at
0 / empty for every gate name. -/
def initDegreeDeps (c : Circuit) : (String → Int) × (String → List String) :=
  c.gates.foldl (initStep c) (fun _ => 0, fun _ => [])

/-- The dependent-processing loop of `topological_sort`
(circuit_types.py lines 144-147): decrement each dependent once per recorded
edge and append it to the ready queue when its in-degree reaches exactly 0. -/
def processDeps (indeg : String → Int) (ready : List String) :
    List String → (String → Int) × List String
  | [] => (indeg, ready)
  | d :: ds =>
    let v := indeg d - 1
    let indeg2 : String → Int := fun m => if m = d then v else indeg m
    let ready2 := if v = 0 then ready ++ [d] else ready
    processDeps indeg2 ready2 ds

/-- The `while ready:` loop of `topological_sort` (circuit_types.py lines
141-147), with `ready.pop(0)` as taking the head of a FIFO queue.  The fuel
argument is an artifact of total modelling; `kahnFuel` below always exceeds
the number of iterations the loop can make, so the fuel never runs out (each
iteration strictly decreases `ready.length + 2 * Σ max(in_degree, 0)`).
The popped name is always a key of `gate_dict`, so the `none` branch of the
lookup is unreachable. -/
def kahnLoop (gdict : String → Option Gate) (deps : String → List String) :
    Nat → (String → Int) → List String → List Gate →
    (String → Int) × List Gate × List String
  | 0, indeg, ready, sorted => (indeg, sorted, ready)
  | _ + 1, indeg, [], sorted => (indeg, sorted, [])
  | fuel + 1, indeg, u :: rest, sorted =>
    let sorted2 :=
      match gdict u with
      | some g => sorted ++ [g]
      | none => sorted
    let st := processDeps indeg rest (deps u)
    kahnLoop gdict deps fuel st.1 st.2 sorted2

/-- Total number of gate-input occurrences of a circuit. -/
def totalInputs (c : Circuit) : Nat := (c.gates.map (fun g => g.inputs.length)).sum

/-- Fuel bound for `kahnLoop`; see the comment there. -/
def kahnFuel (c : Circuit) : Nat := (c.gates.length + totalInputs c + 1) ^ 2

/-- The state of `topological_sort` after its while-loop: final in-degrees,
the sorted gate list, and the leftover ready queue (empty whenever the fuel
sufficed, which `kahnFuel` guarantees). -/
def kahnRun (c : Circuit) : (String → Int) × List Gate × List String :=
  let st := initDegreeDeps c
  let ready0 := (c.gates.filter (fun g => st.1 g.name == 0)).map (fun g => g.name)
  kahnLoop (gateDict c) st.2 (kahnFuel c) st.1 ready0 []

/-- `Circuit.topological_sort` (circuit_types.py lines 125-155).  The
`ValueError("Combinational loop detected: ...")` carries the list of gate
names with positive remaining in-degree, modelled as the error payload. -/
def Circuit.topological_sort (c : Circuit) : Except (List String) (List Gate) :=
  let r := kahnRun c
  if r.2.1.length = c.gates.length then Except.ok r.2.1
  else Except.error ((c.gates.filter (fun g => 0 < r.1 g.name)).map (fun g => g.name))

/-- Shallow embedding of the Z3 boolean terms the encoder builds:
variables, constants, Not, And, Or, If, `==`.  The n-ary Z3 `And`/`Or` are
modelled as right-nested folds (`z3AndL`, `z3OrL`), which have the same
evaluation semantics. -/
inductive BExpr where
  | const (b : Bool)
  | var (n : String)
  | not (e : BExpr)
  | and (a b : BExpr)
  | or (a b : BExpr)
  | ite (c t e : BExpr)
  | eq (a b : BExpr)
deriving DecidableEq

/-- Evaluation of a term under a (total, completion-style) model. -/
def evalB (m : String → Bool) : BExpr → Bool
  | .const b => b
  | .var n => m n
  | .not e => !(evalB m e)
  | .and a b => evalB m a && evalB m b
  | .or a b => evalB m a || evalB m b
  | .ite c t e => if evalB m c then evalB m t else evalB m e
  | .eq a b => evalB m a == evalB m b

/-- Z3's n-ary `And` on a list of terms (true on the empty list). -/
def z3AndL : List BExpr → BExpr
  | [] => .const true
  | e :: es => .and e (z3AndL es)

/-- Z3's n-ary `Or` on a list of terms (false on the empty list). -/
def z3OrL : List BExpr → BExpr
  | [] => .const false
  | e :: es => .or e (z3OrL es)

/-- The idiom `And(xs) if len(xs) > 1 else xs[0]` used for SYNTH constraints,
`behavior` and `correctness`; on an empty list `xs[0]` is Python's IndexError,
modelled as `none`. -/
def pyConj : List BExpr → Option BExpr
  | [] => none
  | [e] => some e
  | es => some (z3AndL es)

/-- Variables of a term, in order of appearance. -/
def varsOf : BExpr → List String
  | .const _ => []
  | .var n => [n]
  | .not e => varsOf e
  | .and a b => varsOf a ++ varsOf b
  | .or a b => varsOf a ++ varsOf b
  | .ite c t e => varsOf c ++ varsOf t ++ varsOf e
  | .eq a b => varsOf a ++ varsOf b

/-- Variables of an assertion list, first appearance first, without
duplicates. -/
def collectVars (es : List BExpr) : List String :=
  ((es.map varsOf).flatten).foldl (fun acc x => if acc.contains x then acc else acc ++ [x]) []

/-! ## Encoder (`encoder.py`) -/

/-- Option-valued map over a list, failing when any element fails (the
semantics of a Python loop that may raise on any element). -/
def mapMO {A B : Type} (f : A → Option B) : List A → Option (List B)
  | [] => some []
  | a :: l =>
    match f a with
    | none => none
    | some b =>
      match mapMO f l with
      | none => none
      | some bs => some (b :: bs)

/-- The literal-building loop of `encode_fixed_gate` (encoder.py lines 26-32)
for one cube, carrying the `enumerate` position: '1' contributes the input
term, '0' its negation, '-' contributes nothing.  `inputs[i]` out of range is
IndexError (`none`). -/
def cubeLits (inputs : List BExpr) : List Char → Nat → Option (List BExpr)
  | [], _ => some []
  | c :: cs, i =>
    if c = '1' then
      match inputs.get? i with
      | none => none
      | some v => (cubeLits inputs cs (i + 1)).map (fun ls => v :: ls)
    else if c = '0' then
      match inputs.get? i with
      | none => none
      | some v => (cubeLits inputs cs (i + 1)).map (fun ls => BExpr.not v :: ls)
    else cubeLits inputs cs (i + 1)

/-- `And(*literals) if len(literals) > 1 else literals[0]`, and Python `True`
for an empty (all-don't-care) cube (encoder.py lines 34-38). -/
def litsTerm : List BExpr → BExpr
  | [] => .const true
  | [l] => l
  | ls => z3AndL ls

/-- The term of one onset cube. -/
def cubeTerm (inputs : List BExpr) (cube : List Char) : Option BExpr :=
  (cubeLits inputs cube 0).map litsTerm

/-- `encode_fixed_gate` (encoder.py lines 13-43): a constant for 0-input
tables (`len(onset_cubes) > 0`), otherwise the disjunction of the cube terms,
Python `False` for an empty onset. -/
def encode_fixed_gate (inputs : List BExpr) (tt : TruthTable) : Option BExpr :=
  if tt.num_inputs = 0 then
    some (.const (decide (0 < tt.onset_cubes.length)))
  else
    match mapMO (cubeTerm inputs) tt.onset_cubes with
    | none => none
    | some [] => some (.const false)
    | some [t] => some t
    | some ts => some (z3OrL ts)

/-- `encode_parameterized_gate` (encoder.py lines 46-77): nested conditional
lookup-table over the parameters for arities 2, 1, 0, ValueError otherwise. -/
def encode_parameterized_gate (inputs params : List BExpr) : Except String BExpr :=
  match inputs with
  | [a, b] =>
    match params with
    | [p0, p1, p2, p3] => Except.ok (.ite a (.ite b p3 p2) (.ite b p1 p0))
    | _ => Except.error ("2-input gate requires 4 parameters")
  | [a] =>
    match params with
    | [p0, p1] => Except.ok (.ite a p1 p0)
    | _ => Except.error ("1-input gate requires 2 parameters")
  | [] =>
    match params with
    | [p0] => Except.ok p0
    | _ => Except.error ("0-input gate requires 1 parameter")
  | _ =>
    Except.error ("Gates with " ++ toString inputs.length ++
      " inputs not supported for parameterization")

/-- The lookup table of `params_to_gate_type` (encoder.py lines 80-111). -/
def gateTypeTable : List (String × String) :=
  [("0000", "CONST0"), ("0001", "AND"), ("0010", "A_AND_NOT_B"), ("0011", "BUF_A"),
   ("0100", "NOT_A_AND_B"), ("0101", "BUF_B"), ("0110", "XOR"), ("0111", "OR"),
   ("1000", "NOR"), ("1001", "XNOR"), ("1010", "NOT_B"), ("1011", "A_OR_NOT_B"),
   ("1100", "NOT_A"), ("1101", "NOT_A_OR_B"), ("1110", "NAND"), ("1111", "CONST1"),
   ("00", "CONST0"), ("01", "BUF"), ("10", "NOT"), ("11", "CONST1")]

/-- `params_to_gate_type` (encoder.py lines 80-111). -/
def params_to_gate_type (vals : List Bool) : String :=
  let tt := String.mk (vals.map (fun p => if p then '1' else '0'))
  match gateTypeTable.find? (fun kv => kv.1 == tt) with
  | some kv => kv.2
  | none => "UNKNOWN(" ++ tt ++ ")"

/-- `evaluate_gate` (encoder.py lines 113-128); its body repeats
`TruthTable.evaluate` character for character, so the model shares the cube
helpers. -/
def evaluate_gate (tt : TruthTable) (inputs : List Bool) : Option Bool :=
  evalCubes inputs tt.onset_cubes

/-- Pointwise update of a Python dict modelled as a partial map. -/
def updateD (f : String → Option Bool) (k : String) (v : Bool) : String → Option Bool :=
  fun s => if s = k then some v else f s

/-- `dict(input_values)` from an association list (later keys overwrite). -/
def dictOfList (l : List (String × Bool)) : String → Option Bool :=
  l.foldl (fun f kv => updateD f kv.1 kv.2) (fun _ => none)

/-- The gate-walking loop of `evaluate_circuit` (encoder.py lines 144-147):
look up the concrete input values (KeyError when absent), evaluate the truth
table, record the output. -/
def evalGatesFold (vals : String → Option Bool) :
    List Gate → Except String (String → Option Bool)
  | [] => Except.ok vals
  | g :: gs =>
    match mapMO vals g.inputs with
    | none => Except.error ("KeyError")
    | some ins =>
      match evaluate_gate g.truth_table ins with
      | none => Except.error ("IndexError")
      | some out => evalGatesFold (updateD vals g.name out) gs

/-- `evaluate_circuit` (encoder.py lines 131-149). -/
def evaluate_circuit (c : Circuit) (input_values : List (String × Bool)) :
    Except String (String → Option Bool) :=
  match c.topological_sort with
  | Except.error _ => Except.error ("ValueError: Combinational loop detected")
  | Except.ok order => evalGatesFold (dictOfList input_values) order

/-- The index loop of `get_parameterized_constraint` (encoder.py lines
174-178): `index += 1 << (n - 1 - i)` for each true input value. -/
def gpcIndexAux (n : Nat) : List Bool → Nat → Nat → Nat
  | [], _, acc => acc
  | v :: vs, i, acc =>
    gpcIndexAux n vs (i + 1) (if v then acc + 2 ^ (n - 1 - i) else acc)

/-- The truth-table index computed by `get_parameterized_constraint`. -/
def gpcIndex (vals : List Bool) : Nat := gpcIndexAux vals.length vals 0 0

/-- `get_parameterized_constraint` (encoder.py lines 152-184): the parameter
at the computed index, positively when the expected output is true, negated
otherwise.  `params[index]` out of range is IndexError (`none`). -/
def get_parameterized_constraint (input_values : List Bool) (expected_output : Bool)
    (params : List BExpr) : Option BExpr :=
  match params.get? (gpcIndex input_values) with
  | none => none
  | some p => some (if expected_output then p else .not p)

/-- The encoding dictionary returned by `encoder.encode` (the debug-only
`signals` entry is omitted; nothing downstream reads it). -/
structure Encoding where
  params : List String
  inputs : List String
  behavior : BExpr
  correctness : BExpr
  param_info : List (String × List String)
  impl_circuit : Circuit
  spec_circuit : Circuit
  input_names : List String
  output_names : List String

/-- Accumulator of the implementation-circuit walk inside `encode`. -/
structure EncSt where
  params : List String
  param_info : List (String × List String)
  signals : String → Option BExpr
  constraints : List BExpr

/-- The fresh parameter names `p_{gate}_{i}` for `i < k` (encoder.py
line 253). -/
def paramNames (g : String) (k : Nat) : List String :=
  (List.range k).map (fun i => "p_" ++ g ++ "_" ++ toString i)

/-- One step of the implementation walk of `encode` (encoder.py lines
240-263): look up the input signals, register the output variable, then
encode the gate as parameterized (when in the fix-set) or fixed, and assert
output variable = gate function. -/
def encImplGate (fix : List String) (st : EncSt) (g : Gate) : Except String EncSt :=
  match mapMO st.signals g.inputs with
  | none => Except.error ("KeyError")
  | some gate_inputs =>
    let out : BExpr := .var g.name
    let sigs : String → Option BExpr := fun s => if s = g.name then some out else st.signals s
    if fix.contains g.name then
      let gp := paramNames g.name (2 ^ g.num_inputs)
      match encode_parameterized_gate gate_inputs (gp.map BExpr.var) with
      | Except.error e => Except.error e
      | Except.ok func =>
        Except.ok ⟨st.params ++ gp, st.param_info ++ [(g.name, gp)], sigs,
          st.constraints ++ [.eq out func]⟩
    else
      match encode_fixed_gate gate_inputs g.truth_table with
      | none => Except.error ("IndexError")
      | some func =>
        Except.ok ⟨st.params, st.param_info, sigs, st.constraints ++ [.eq out func]⟩

/-- One step of the specification walk of `encode` (encoder.py lines
270-283): all gates fixed, output variables suffixed `_spec`. -/
def encSpecGate (st : (String → Option BExpr) × List BExpr) (g : Gate) :
    Except String ((String → Option BExpr) × List BExpr) :=
  match mapMO st.1 g.inputs with
  | none => Except.error ("KeyError")
  | some gate_inputs =>
    let out : BExpr := .var (g.name ++ "_spec")
    let sigs : String → Option BExpr := fun s => if s = g.name then some out else st.1 s
    match encode_fixed_gate gate_inputs g.truth_table with
    | none => Except.error ("IndexError")
    | some func => Except.ok (sigs, st.2 ++ [.eq out func])

/-- Set equality of name lists (Python `set(xs) != set(ys)`). -/
def sameSet (a b : List String) : Bool :=
  a.all (fun x => b.contains x) && b.all (fun x => a.contains x)

/-- `encoder.encode` (encoder.py lines 190-308): validate the primary
input/output sets, walk the implementation in dependency order (fix-set gates
parameterized), walk the specification in a `_spec`-suffixed namespace over
the same primary-input variables, and build the correctness constraint over
the primary outputs. -/
def encode (implc specc : Circuit) (fix : List String) : Except String Encoding :=
  if !(sameSet implc.primary_inputs specc.primary_inputs) then
    Except.error ("Circuits have different primary inputs")
  else if !(sameSet implc.primary_outputs specc.primary_outputs) then
    Except.error ("Circuits have different primary outputs")
  else
    match implc.topological_sort with
    | Except.error _ => Except.error ("ValueError: Combinational loop detected")
    | Except.ok implOrder =>
      let pis : String → Option BExpr :=
        fun s => if implc.primary_inputs.contains s then some (.var s) else none
      match implOrder.foldlM (encImplGate fix) (⟨[], [], pis, []⟩ : EncSt) with
      | Except.error e => Except.error e
      | Except.ok st =>
        match specc.topological_sort with
        | Except.error _ => Except.error ("ValueError: Combinational loop detected")
        | Except.ok specOrder =>
          match specOrder.foldlM encSpecGate (pis, []) with
          | Except.error e => Except.error e
          | Except.ok spst =>
            match mapMO (fun po =>
                match st.signals po, spst.1 po with
                | some io, some so => some (BExpr.eq io so)
                | _, _ => none) implc.primary_outputs with
            | none => Except.error ("KeyError")
            | some cterms =>
              match pyConj cterms with
              | none => Except.error ("IndexError: list index out of range")
              | some correctness =>
                match pyConj (st.constraints ++ spst.2) with
                | none => Except.error ("IndexError: list index out of range")
                | some behavior =>
                  Except.ok ⟨st.params, implc.primary_inputs, behavior, correctness,
                    st.param_info, implc, specc,
                    implc.primary_inputs, implc.primary_outputs⟩

/-- `encoder.extract_solution` (encoder.py lines 311-331): per fixed gate, the
parameter values read from the model and the decoded gate type. -/
def extract_solution (m : String → Bool) (param_info : List (String × List String)) :
    List (String × (List Bool × String)) :=
  param_info.map (fun gi =>
    let vals := gi.2.map m
    (gi.1, (vals, params_to_gate_type vals)))

/-! ## CEGIS loop (`cegis.py`) -/

/-- The result dictionary of `cegis.run`.  `none` in an `Option` field means
the corresponding key is absent from the returned dict. -/
structure RunResult where
  success : Bool
  model : Option (String → Bool)
  iterations : Nat
  test_vectors : Option (List (List (String × Bool)))
  reason : Option String

/-- Outcome of one iteration of the CEGIS loop body: a `return` from the
function, an uncaught Python exception, or fall-through to the next iteration
with the updated SYNTH assertion list and test-vector list. -/
inductive StepRes where
  | done (r : RunResult)
  | cont (synth : List BExpr) (tvs : List (List (String × Bool)))
  | err (e : String)

/-- The constraint-building loop of `cegis.run` (cegis.py lines 98-118): for
each fix-set gate, read its concrete input values from the implementation
simulation, evaluate the specification gate's truth table on them, and build
the parameter constraint. -/
def buildConstraints (implc specc : Circuit) (implVals : String → Option Bool) :
    List (String × List String) → Except String (List BExpr)
  | [] => Except.ok []
  | (gname, gparams) :: rest =>
    match implc.get_gate gname with
    | none => Except.error ("AttributeError: NoneType has no attribute inputs")
    | some gate =>
      match mapMO implVals gate.inputs with
      | none => Except.error ("KeyError")
      | some vals =>
        match specc.get_gate gname with
        | none => Except.error ("AttributeError: NoneType has no attribute truth_table")
        | some sg =>
          match evaluate_gate sg.truth_table vals with
          | none => Except.error ("IndexError")
          | some expected =>
            match get_parameterized_constraint vals expected (gparams.map BExpr.var) with
            | none => Except.error ("IndexError: list index out of range")
            | some con =>
              match buildConstraints implc specc implVals rest with
              | Except.error e => Except.error e
              | Except.ok cs => Except.ok (con :: cs)

/-- Counterexample extraction (cegis.py lines 78-80): the concrete value of
each primary-input variable under the verifier model. -/
def mkIV (enc : Encoding) (m : String → Bool) : List (String × Bool) :=
  (enc.input_names.zip enc.inputs).map (fun p => (p.1, m p.2))

/-- One iteration of the CEGIS loop body (cegis.py lines 50-120): query SYNTH;
on a candidate, build the fresh VERIFY context (behavior, pinned parameters,
negated correctness) and query it; on a verifier model, extract and append the
counterexample, simulate both circuits concretely, and append the parameter
constraint to SYNTH. -/
def runStep (oracle : List BExpr → Option (String → Bool)) (enc : Encoding)
    (iteration : Nat) (synth : List BExpr) (tvs : List (List (String × Bool))) : StepRes :=
  match oracle synth with
  | none =>
    .done { success := false, model := none, iterations := iteration,
            test_vectors := none,
            reason := some ("No valid parameters exist for the given gates") }
  | some candidate =>
    let pins := z3AndL (enc.params.map (fun p => BExpr.eq (.var p) (.const (candidate p))))
    match oracle [enc.behavior, pins, .not enc.correctness] with
    | none =>
      .done { success := true, model := some candidate, iterations := iteration,
              test_vectors := some tvs, reason := none }
    | some cm =>
      let iv := mkIV enc cm
      let tvs2 := tvs ++ [iv]
      match evaluate_circuit enc.impl_circuit iv with
      | Except.error e => .err e
      | Except.ok implVals =>
        match evaluate_circuit enc.spec_circuit iv with
        | Except.error e => .err e
        | Except.ok _ =>
          match buildConstraints enc.impl_circuit enc.spec_circuit implVals enc.param_info with
          | Except.error e => .err e
          | Except.ok cs =>
            match pyConj cs with
            | none => .err ("IndexError: list index out of range")
            | some con => .cont (synth ++ [con]) tvs2

/-- The `for iteration in range(1, max_iterations + 1)` loop of `cegis.run`;
falling off the end returns the FAILED dict of cegis.py line 122, which
carries no `test_vectors` key. -/
def runLoop (oracle : List BExpr → Option (String → Bool)) (enc : Encoding) (maxIter : Nat) :
    Nat → Nat → List BExpr → List (List (String × Bool)) → Except String RunResult
  | 0, _, _, _ =>
    Except.ok { success := false, model := none, iterations := maxIter,
                test_vectors := none, reason := some ("Maximum iterations reached") }
  | fuel + 1, iteration, synth, tvs =>
    match runStep oracle enc iteration synth tvs with
    | .done r => Except.ok r
    | .err e => Except.error e
    | .cont s2 t2 => runLoop oracle enc maxIter fuel (iteration + 1) s2 t2

/-- `cegis.run` (cegis.py lines 11-122), parameterized by the oracle standing
for Z3. -/
def cegis.run (oracle : List BExpr → Option (String → Bool)) (enc : Encoding)
    (maxIter : Nat) : Except String RunResult :=
  runLoop oracle enc maxIter maxIter 1 [] []

/-- Observer of the loop state after `k` completed (fall-through) iterations
of `runStep`, starting at iteration number `it`: the accumulated SYNTH
assertion list and test-vector list. -/
def iterSteps (oracle : List BExpr → Option (String → Bool)) (enc : Encoding) :
    Nat → Nat → List BExpr × List (List (String × Bool)) →
    List BExpr × List (List (String × Bool))
  | 0, _, st => st
  | k + 1, it, st =>
    match runStep oracle enc it st.1 st.2 with
    | .cont s2 t2 => iterSteps oracle enc k (it + 1) (s2, t2)
    | _ => st

/-! ## The oracle contract and a concrete decision-procedure oracle -/

/-- The contract of the Z3 `Solver.check`/`model` pair consumed by the loop
(spec section 6): a returned model satisfies every asserted term (with
completion giving values to all variables), and `none` is returned only on a
genuinely unsatisfiable assertion list. -/
def OracleValid (oracle : List BExpr → Option (String → Bool)) : Prop :=
  ∀ asserts : List BExpr,
    (∀ m, oracle asserts = some m → ∀ e ∈ asserts, evalB m e = true) ∧
    (oracle asserts = none → ∀ m : String → Bool, ∃ e ∈ asserts, evalB m e = false)

/-- All boolean lists of length `n`, false before true, first position most
significant. -/
def allBoolLists : Nat → List (List Bool)
  | 0 => [[]]
  | n + 1 =>
    (allBoolLists n).map (fun l => false :: l) ++ (allBoolLists n).map (fun l => true :: l)

/-- Association-list lookup defaulting to false (the completion policy). -/
def assocB : List (String × Bool) → String → Bool
  | [], _ => false
  | kv :: rest, s => if s = kv.1 then kv.2 else assocB rest s

/-- The assignment mapping the i-th collected variable to the i-th bit. -/
def mkAsg (vs : List String) (bl : List Bool) : String → Bool :=
  assocB (vs.zip bl)

/-- A concrete valid oracle: exhaustive search over the variables of the
assertion list, returning the first satisfying assignment in the
`allBoolLists` order (unmentioned variables complete to false). -/
def bruteOracle (asserts : List BExpr) : Option (String → Bool) :=
  let vs := collectVars asserts
  match (allBoolLists vs.length).find?
      (fun bl => asserts.all (fun e => evalB (mkAsg vs bl) e)) with
  | none => none
  | some bl => some (mkAsg vs bl)

/-! ## Concrete instances -/

/-- AND truth table, onset `{"11"}`. -/
def ttAND : TruthTable := ⟨2, [['1', '1']]⟩

/-- OR truth table, onset `{"1-", "-1"}`. -/
def ttOR : TruthTable := ⟨2, [['1', '-'], ['-', '1']]⟩

/-- BUF truth table, onset `{"1"}`. -/
def ttBUF : TruthTable := ⟨1, [['1']]⟩

/-- NOT truth table, onset `{"0"}`. -/
def ttNOT : TruthTable := ⟨1, [['0']]⟩

/-- The buggy implementation of the end-to-end example: a single gate
`f = AND(a, b)`. -/
def implAND : Circuit := ⟨"impl", ["a", "b"], ["f"], [⟨"f", ["a", "b"], ttAND⟩]⟩

/-- The specification of the end-to-end example: `f = OR(a, b)`. -/
def specOR : Circuit := ⟨"spec", ["a", "b"], ["f"], [⟨"f", ["a", "b"], ttOR⟩]⟩

/-- The encoding of the end-to-end example with fix-set `{f}` (the `encode`
call cannot fail on this instance; the fallback branch is dead). -/
def encAB : Encoding :=
  match encode implAND specOR ["f"] with
  | Except.ok e => e
  | Except.error _ =>
    ⟨[], [], .const true, .const true, [], implAND, specOR, [], []⟩

/-- A two-gate chain whose fix-set gates feed each other:
`g = NOT(a)`, `f = BUF(g)`. -/
def implNB : Circuit :=
  ⟨"impl", ["a"], ["f"], [⟨"g", ["a"], ttNOT⟩, ⟨"f", ["g"], ttBUF⟩]⟩

/-- Its specification: `g = BUF(a)`, `f = BUF(g)`, so `f = a`. -/
def specNB : Circuit :=
  ⟨"spec", ["a"], ["f"], [⟨"g", ["a"], ttBUF⟩, ⟨"f", ["g"], ttBUF⟩]⟩

/-- The encoding of the chain instance with fix-set `{g, f}`. -/
def encNB : Encoding :=
  match encode implNB specNB ["g", "f"] with
  | Except.ok e => e
  | Except.error _ =>
    ⟨[], [], .const true, .const true, [], implNB, specNB, [], []⟩

/-! ## Predicates and auxiliary definitions used by the theorems -/

/-- `l` lists every producer of a gate before the gate itself: whenever the
list splits as `l1 ++ g :: l2`, every gate of the circuit producing one of
`g`'s inputs already occurs in `l1`. -/
def TopoOrdered (c : Circuit) (l : List Gate) : Prop :=
  ∀ l1 g l2, l = l1 ++ g :: l2 → ∀ p ∈ c.gates, p.name ∈ g.inputs → p ∈ l1

/-- The circuit's gate dependency graph contains a cycle: a nonempty set of
gate names each of which consumes the output of another member.  (For finite
graphs this is equivalent to the existence of a directed cycle: the set of
vertices lying on a cycle is such a set, and conversely such a set supports an
infinite, hence repeating, walk.) -/
def hasCycle (c : Circuit) : Prop :=
  ∃ S : List String, S ≠ [] ∧
    ∀ n ∈ S, ∃ g ∈ c.gates, g.name = n ∧ ∃ inp ∈ g.inputs, inp ∈ S

/-- Gate names of the topological order computed by the code (empty on a
cycle error). -/
def topoNames (c : Circuit) : List String :=
  match c.topological_sort with
  | Except.ok l => l.map (fun g => g.name)
  | Except.error _ => []

/-- Follows the spec's words (section 4.2), for comparison with the code:
a Kahn loop that removes, among all currently ready gates, the one earliest
in original declaration order. -/
def declKahnLoop (c : Circuit) (deps : String → List String) :
    Nat → (String → Int) → List String → List String → List String
  | 0, _, _, acc => acc
  | fuel + 1, indeg, ready, acc =>
    match c.gates.find? (fun g => ready.contains g.name) with
    | none => acc
    | some g =>
      let ready1 := ready.erase g.name
      let st := processDeps indeg ready1 (deps g.name)
      declKahnLoop c deps fuel st.1 st.2 (acc ++ [g.name])

/-- Gate names in the declaration-order tie-break ordering the spec
describes. -/
def declKahnNames (c : Circuit) : List String :=
  let st := initDegreeDeps c
  let ready0 := (c.gates.filter (fun g => st.1 g.name == 0)).map (fun g => g.name)
  declKahnLoop c st.2 (kahnFuel c) st.1 ready0 []

/-- Three buffers with declaration order `g3, g1, g2`, where `g3` consumes
`g1`: after `g1` is removed both `g2` (queued first) and `g3` (declared
first) are ready, separating the FIFO order from the declaration order. -/
def tieCirc : Circuit :=
  ⟨"tie", ["x"], ["g3"],
   [⟨"g3", ["g1"], ttBUF⟩, ⟨"g1", ["x"], ttBUF⟩, ⟨"g2", ["x"], ttBUF⟩]⟩

/-- A two-gate combinational loop. -/
def cycCirc : Circuit :=
  ⟨"cyc", [], ["u"], [⟨"u", ["v"], ttBUF⟩, ⟨"v", ["u"], ttBUF⟩]⟩

/-- The binary value of a bit list, first element most significant. -/
def natMSB (vals : List Bool) : Nat :=
  vals.foldl (fun acc b => 2 * acc + (if b then 1 else 0)) 0

/-- A 3-input gate instance whose fix-set hits the arity cap. -/
def impl3 : Circuit :=
  ⟨"impl3", ["x", "y", "z"], ["f"], [⟨"f", ["x", "y", "z"], ⟨3, [['1', '1', '1']]⟩⟩]⟩

/-- Its specification. -/
def spec3 : Circuit :=
  ⟨"spec3", ["x", "y", "z"], ["f"], [⟨"f", ["x", "y", "z"], ⟨3, [['1', '-', '-']]⟩⟩]⟩

/-- A one-gate buffer circuit, used as an implementation equivalent to its
specification. -/
def implBuf : Circuit := ⟨"impl", ["a"], ["f"], [⟨"f", ["a"], ttBUF⟩]⟩

/-- The same buffer as specification. -/
def specBuf : Circuit := ⟨"spec", ["a"], ["f"], [⟨"f", ["a"], ttBUF⟩]⟩

/-- The encoding of the buffer pair with an empty fix-set. -/
def encBuf : Encoding :=
  match encode implBuf specBuf [] with
  | Except.ok e => e
  | Except.error _ =>
    ⟨[], [], .const true, .const true, [], implBuf, specBuf, [], []⟩

/-- The model pinning a 2-input parameterized gate's parameters
`q0, q1, q2, q3` to `(false, false, false, true)` over inputs `a`, `b`. -/
def pinnedAndModel (a b : Bool) : String → Bool :=
  fun s => if s = "a" then a else if s = "b" then b else if s = "q3" then true else false

/-- Number of gate-produced inputs of a gate (counting occurrences). -/
def keyCount (c : Circuit) (g : Gate) : Nat :=
  (g.inputs.filter (fun inp => isKey c inp)).length

/-- Number of occurrences of a net among a gate's inputs. -/
def countIn (g : Gate) (u : String) : Nat :=
  (g.inputs.filter (fun inp => inp == u)).length

/-- Number of gate-produced inputs of `g` whose producing gate is not yet in
`S` (the names of the already-sorted gates). -/
def remCount (c : Circuit) (g : Gate) (S : List String) : Nat :=
  (g.inputs.filter (fun inp => isKey c inp && !(S.contains inp))).length

/-- The invariant of the Kahn while-loop, for a circuit with unique gate
names: every ready name is a gate name; no name is sorted or queued twice; the
sorted list holds circuit gates whose producers are all sorted, in an order
that lists producers first; the tracked in-degree of every gate counts its
not-yet-sorted gate-produced inputs; ready gates have in-degree 0; and any
gate whose in-degree has dropped to 0 is sorted or queued. -/
structure KahnInv (c : Circuit) (indeg : String → Int) (ready : List String)
    (sorted : List Gate) : Prop where
  readyL : ∀ n ∈ ready, n ∈ c.gates.map Gate.name
  nodup : (sorted.map Gate.name ++ ready).Nodup
  sortedMem : ∀ g ∈ sorted, g ∈ c.gates
  degEq : ∀ g ∈ c.gates, indeg g.name = (remCount c g (sorted.map Gate.name) : Int)
  readyZero : ∀ n ∈ ready, indeg n = 0
  closed : ∀ g ∈ sorted, ∀ inp ∈ g.inputs, isKey c inp = true → inp ∈ sorted.map Gate.name
  ordered : ∀ l1 g l2, sorted = l1 ++ g :: l2 → ∀ p ∈ c.gates, p.name ∈ g.inputs → p ∈ l1
  lowMem : ∀ n ∈ c.gates.map Gate.name, indeg n ≤ 0 →
    n ∈ sorted.map Gate.name ∨ n ∈ ready

/-- Decreasing measure of the Kahn while-loop. -/
def kahnMeasure (c : Circuit) (indeg : String → Int) (ready : List String) : Nat :=
  ready.length + 2 * ((c.gates.map Gate.name).map (fun n => (indeg n).toNat)).sum

/-- The parameter of the AND-vs-OR instance addressed by input pattern
`(x, y)` (first input most significant). -/
def orParamName (x y : Bool) : String :=
  "p_f_" ++ toString (2 * (if x then 1 else 0) + (if y then 1 else 0))

/-- The SYNTH constraint generated by counterexample `(x, y)` on the
AND-vs-OR instance: the addressed parameter, positive iff `OR(x, y)`. -/
def orCon (x y : Bool) : BExpr :=
  if x || y then .var (orParamName x y) else .not (.var (orParamName x y))

/-- The test vector extracted for counterexample `(x, y)`. -/
def orIV (x y : Bool) : List (String × Bool) := [("a", x), ("b", y)]

/-- `orCon` on a pair. -/
def orConP (p : Bool × Bool) : BExpr := orCon p.1 p.2

/-- `orIV` on a pair. -/
def orIVP (p : Bool × Bool) : List (String × Bool) := orIV p.1 p.2

/-- A full verifier model for the AND-vs-OR instance: inputs `(x, y)`,
parameters read from the candidate `c`, the impl output the candidate's
lookup value, the spec output `OR(x, y)`. -/
def orWitnessModel (x y : Bool) (c : String → Bool) : String → Bool :=
  fun s =>
    if s = "a" then x
    else if s = "b" then y
    else if s = "f" then
      (if x then (if y then c "p_f_3" else c "p_f_2")
       else (if y then c "p_f_1" else c "p_f_0"))
    else if s = "f_spec" then x || y
    else if s = "p_f_0" then c "p_f_0"
    else if s = "p_f_1" then c "p_f_1"
    else if s = "p_f_2" then c "p_f_2"
    else if s = "p_f_3" then c "p_f_3"
    else false

set_option maxRecDepth 100000

/-! ## Basic evaluation lemmas -/

theorem evalB_z3AndL (m : String → Bool) (ls : List BExpr) :
    evalB m (z3AndL ls) = ls.all (fun e => evalB m e) := by
  induction ls with
  | nil => rfl
  | cons e es ih => simp [z3AndL, evalB, ih]

theorem evalB_z3OrL (m : String → Bool) (ls : List BExpr) :
    evalB m (z3OrL ls) = ls.any (fun e => evalB m e) := by
  induction ls with
  | nil => rfl
  | cons e es ih => simp [z3OrL, evalB, ih]

/-! ## C10: zero-input truth tables -/

/-- C10: for every zero-input truth table (cubes of length zero),
`TruthTable.evaluate` returns true exactly when the onset is non-empty and
`encode_fixed_gate` returns the matching constant; in particular the
malformed zero-arity table with two cubes is silently treated as constant
true instead of being rejected. -/
theorem zero_input_table_constant (tt : TruthTable) (inputs : List BExpr)
    (h0 : tt.num_inputs = 0) (hc : ∀ cube ∈ tt.onset_cubes, cube = []) :
    tt.evaluate [] = some (!tt.onset_cubes.isEmpty) ∧
    encode_fixed_gate inputs tt = some (.const (!tt.onset_cubes.isEmpty)) ∧
    (TruthTable.mk 0 [[], []]).evaluate [] = some true ∧
    encode_fixed_gate inputs ⟨0, [[], []]⟩ = some (.const true) := by
  refine ⟨?_, ?_, by decide, by simp [encode_fixed_gate]⟩
  · unfold TruthTable.evaluate
    cases htt : tt.onset_cubes with
    | nil => simp [evalCubes]
    | cons c rest =>
      have hcz : c = [] := hc c (by rw [htt]; exact List.mem_cons_self c rest)
      subst hcz
      simp [evalCubes, cubeMatch]
  · rw [encode_fixed_gate, if_pos h0]
    cases htt : tt.onset_cubes <;> simp

/-- Witness for C10 at the malformed table `⟨0, ["", ""]⟩`. -/
theorem zero_input_table_constant_witness :
    (⟨0, [[], []]⟩ : TruthTable).evaluate [] = some true ∧
    encode_fixed_gate [] (⟨0, [[], []]⟩ : TruthTable) = some (.const true) := by
  have h := zero_input_table_constant ⟨0, [[], []]⟩ [] rfl (by decide)
  exact ⟨h.2.2.1, h.2.2.2⟩

/-! ## C4: the iteration-cap return drops the counterexample list -/

/-- C4 (code bug): on the AND-vs-OR instance with `max_iterations = 1`, the
loop extracts a counterexample in its only iteration, yet the FAILED dict
returned at the iteration cap (cegis.py line 122) carries no `test_vectors`
key, contradicting `run`'s docstring and spec section 7(d). -/
theorem max_iter_drops_test_vectors :
    (∃ r, cegis.run bruteOracle encAB 1 = Except.ok r ∧ r.success = false ∧
      r.iterations = 1 ∧ r.reason = some ("Maximum iterations reached") ∧
      r.test_vectors = none) ∧
    (iterSteps bruteOracle encAB 1 1 ([], [])).2 = [[("a", false), ("b", true)]] := by
  exact ⟨⟨_, rfl, rfl, rfl, rfl, rfl⟩, by decide⟩

/-! ## C1, counterexample part: duplicate counterexamples in one run -/

/-- C1 counterexample: on the chain instance (`g = NOT(a)`, `f = BUF(g)` to be
rectified into two buffers, fix-set `{g, f}`), a run under the concrete valid
oracle extracts the same primary-input assignment `a = true` in its first two
iterations: the counterexample list is not duplicate-free.  The same run hits
the iteration cap rather than succeeding. -/
theorem duplicate_counterexample_trace :
    (iterSteps bruteOracle encNB 2 1 ([], [])).2 = [[("a", true)], [("a", true)]] ∧
    ¬ (iterSteps bruteOracle encNB 2 1 ([], [])).2.Nodup ∧
    (∃ r, cegis.run bruteOracle encNB 3 = Except.ok r ∧ r.success = false) := by
  exact ⟨by decide, by decide, ⟨_, rfl, rfl⟩⟩

/-! ## C2, counterexample part: three counterexamples including (1,1) -/

/-- C2 counterexample: on the end-to-end AND-vs-OR instance the run under the
concrete valid oracle terminates SUCCESS with the OR decode, but only after
three counterexamples — `(0,1)`, `(1,0)` and also `(1,1)` — refuting "at most
2 counterexamples, those being (1,0) and (0,1)". -/
theorem and_or_three_counterexamples :
    ∃ r, cegis.run bruteOracle encAB 10 = Except.ok r ∧ r.success = true ∧
      r.iterations = 4 ∧
      r.test_vectors = some [[("a", false), ("b", true)], [("a", true), ("b", false)],
        [("a", true), ("b", true)]] ∧
      ∃ m, r.model = some m ∧
        extract_solution m encAB.param_info = [("f", ([false, true, true, true], "OR"))] := by
  exact ⟨_, rfl, rfl, rfl, rfl, _, rfl, rfl⟩

/-! ## C7, counterexample part: FIFO order is not declaration order -/

/-- C7 counterexample: on `tieCirc` the code's FIFO queue orders `g2` before
`g3`, while the declaration-order tie-break described by the spec orders `g3`
before `g2`. -/
theorem fifo_not_declaration_order :
    topoNames tieCirc = ["g1", "g2", "g3"] ∧
    declKahnNames tieCirc = ["g1", "g3", "g2"] ∧
    topoNames tieCirc ≠ declKahnNames tieCirc := by
  exact ⟨by decide, by decide, by decide⟩

/-! ## C6: the parameterized gate is a lookup table -/

/-- C6: for arities 0, 1, 2 the term built by `encode_parameterized_gate`
evaluates, under every model, to the parameter indexed by the input values
with the first input as most-significant bit; and for a 2-input gate with
parameters pinned to `(false, false, false, true)` it agrees with
`encode_fixed_gate` of the AND table on all four input combinations. -/
theorem encode_parameterized_lookup :
    (∀ (ins ps : List BExpr) (m : String → Bool), ins.length ≤ 2 →
      ps.length = 2 ^ ins.length →
      ∃ e, encode_parameterized_gate ins ps = Except.ok e ∧
        ∃ hidx : natMSB (ins.map (evalB m)) < ps.length,
          evalB m e = evalB m (ps.get ⟨natMSB (ins.map (evalB m)), hidx⟩)) ∧
    (∃ tpar tfix,
      encode_parameterized_gate [.var "a", .var "b"]
        [.var "q0", .var "q1", .var "q2", .var "q3"] = Except.ok tpar ∧
      encode_fixed_gate [.var "a", .var "b"] ttAND = some tfix ∧
      ∀ a b : Bool, evalB (pinnedAndModel a b) tpar = evalB (pinnedAndModel a b) tfix) := by
  constructor
  · intro ins ps m hle hp
    match ins, hle with
    | [], _ =>
      match ps, hp with
      | [p0], _ =>
        exact ⟨p0, rfl, by simp [natMSB], rfl⟩
    | [a], _ =>
      match ps, hp with
      | [p0, p1], _ =>
        refine ⟨.ite a p1 p0, rfl, ?_⟩
        cases ha : evalB m a <;> simp [natMSB, evalB, ha]
    | [a, b], _ =>
      match ps, hp with
      | [p0, p1, p2, p3], _ =>
        refine ⟨.ite a (.ite b p3 p2) (.ite b p1 p0), rfl, ?_⟩
        cases ha : evalB m a <;> cases hb : evalB m b <;>
          (simp [natMSB, evalB, ha, hb]; try rfl)
  · exact ⟨_, _, rfl, rfl, by decide⟩

/-- Witness for C6 at a concrete 1-input gate and model. -/
theorem encode_parameterized_lookup_witness :
    ∃ e, encode_parameterized_gate [.var "x"] [.var "q0", .var "q1"] = Except.ok e ∧
      ∃ hidx : natMSB ([BExpr.var "x"].map (evalB (fun s => s == "x"))) <
          [BExpr.var "q0", BExpr.var "q1"].length,
        evalB (fun s => s == "x") e =
          evalB (fun s => s == "x")
            ([BExpr.var "q0", BExpr.var "q1"].get
              ⟨natMSB ([BExpr.var "x"].map (evalB (fun s => s == "x"))), hidx⟩) :=
  encode_parameterized_lookup.1 [.var "x"] [.var "q0", .var "q1"]
    (fun s => s == "x") (by decide) (by decide)

/-! ## C5: fixed-gate encoding matches truth-table evaluation -/

theorem cubeLits_cubeMatch (m : String → Bool) (exprs : List BExpr) (cube : List Char)
    (i : Nat) (hb : i + cube.length ≤ exprs.length) :
    ∃ ls, cubeLits exprs cube i = some ls ∧
      cubeMatch (exprs.map (evalB m)) cube i = some (ls.all (fun l => evalB m l)) := by
  induction cube generalizing i with
  | nil => exact ⟨[], rfl, rfl⟩
  | cons c cs ih =>
    have hi : i < exprs.length := by simp at hb; omega
    have hv : exprs[i]? = some exprs[i] := List.getElem?_eq_getElem hi
    have hv2 : (List.map (evalB m) exprs)[i]? = some (evalB m exprs[i]) := by
      simp [hi]
    obtain ⟨ls, hls, hmt⟩ := ih (i + 1) (by simp at hb ⊢; omega)
    by_cases h1 : c = '1'
    · subst h1
      refine ⟨exprs[i] :: ls, ?_, ?_⟩
      · simp [cubeLits, hv, hls]
      · cases hvv : evalB m exprs[i] <;> simp [cubeMatch, hv2, hvv, hmt]
    · by_cases h0 : c = '0'
      · subst h0
        refine ⟨BExpr.not exprs[i] :: ls, ?_, ?_⟩
        · simp [cubeLits, hv, hls]
        · cases hvv : evalB m exprs[i] <;> simp [cubeMatch, evalB, hv2, hvv, hmt]
      · exact ⟨ls, by simp [cubeLits, h1, h0, hls], by simp [cubeMatch, h1, h0, hmt]⟩

theorem evalB_litsTerm (m : String → Bool) (ls : List BExpr) :
    evalB m (litsTerm ls) = ls.all (fun l => evalB m l) := by
  match ls with
  | [] => rfl
  | [l] => simp [litsTerm]
  | l1 :: l2 :: rest => simp [litsTerm, evalB_z3AndL]

theorem cubeTerm_sem (m : String → Bool) (exprs : List BExpr) (cube : List Char)
    (hb : cube.length ≤ exprs.length) :
    ∃ t, cubeTerm exprs cube = some t ∧
      cubeMatch (exprs.map (evalB m)) cube 0 = some (evalB m t) := by
  obtain ⟨ls, hls, hmt⟩ := cubeLits_cubeMatch m exprs cube 0 (by omega)
  exact ⟨litsTerm ls, by simp [cubeTerm, hls], by rw [hmt, evalB_litsTerm]⟩

theorem cubes_sem (m : String → Bool) (exprs : List BExpr) (cubes : List (List Char))
    (hb : ∀ cube ∈ cubes, cube.length ≤ exprs.length) :
    ∃ ts, mapMO (cubeTerm exprs) cubes = some ts ∧
      evalCubes (exprs.map (evalB m)) cubes = some (ts.any (fun t => evalB m t)) := by
  induction cubes with
  | nil => exact ⟨[], rfl, rfl⟩
  | cons cube rest ih =>
    obtain ⟨t, ht, hmt⟩ := cubeTerm_sem m exprs cube (hb cube (List.mem_cons_self _ _))
    obtain ⟨ts, hts, hev⟩ := ih (fun c hc => hb c (List.mem_cons_of_mem _ hc))
    refine ⟨t :: ts, ?_, ?_⟩
    · simp [mapMO, ht, hts]
    · cases hvt : evalB m t <;> simp [evalCubes, hmt, hvt, hev]

theorem mapMO_length {A B : Type} (f : A → Option B) :
    ∀ (l : List A) (ts : List B), mapMO f l = some ts → ts.length = l.length := by
  intro l
  induction l with
  | nil => intro ts h; simp [mapMO] at h; simp [← h]
  | cons a l2 ih =>
    intro ts h
    rw [mapMO] at h
    cases hfa : f a with
    | none => rw [hfa] at h; simp at h
    | some b =>
      rw [hfa] at h
      cases hml : mapMO f l2 with
      | none => rw [hml] at h; simp at h
      | some ts2 =>
        rw [hml] at h
        simp at h
        rw [← h]
        simp [ih ts2 hml]

theorem cubeMatch_dash (vals : List Bool) (cube : List Char)
    (hd : ∀ ch ∈ cube, ch = '-') : ∀ i, cubeMatch vals cube i = some true := by
  induction cube with
  | nil => intro i; rfl
  | cons ch cs ih =>
    intro i
    have h1 : ch = '-' := hd ch (List.mem_cons_self _ _)
    subst h1
    rw [cubeMatch, if_neg (by decide), if_neg (by decide)]
    exact ih (fun c hc => hd c (List.mem_cons_of_mem _ hc)) (i + 1)

theorem evalCubes_true_of_mem (vals : List Bool) (cubes : List (List Char))
    (cube : List Char) (b : Bool) (hmem : cube ∈ cubes)
    (hma : cubeMatch vals cube 0 = some true)
    (hsome : evalCubes vals cubes = some b) : b = true := by
  induction cubes with
  | nil => simp at hmem
  | cons c rest ih =>
    rw [evalCubes] at hsome
    cases hm1 : cubeMatch vals c 0 with
    | none => rw [hm1] at hsome; simp at hsome
    | some b1 =>
      rw [hm1] at hsome
      cases b1 with
      | true => simp at hsome; exact hsome
      | false =>
        rcases List.mem_cons.mp hmem with h | h
        · subst h; rw [hma] at hm1; simp at hm1
        · exact ih h hsome

/-- C5: for every truth table of positive arity whose cubes all have length
`num_inputs`, and every model of the input terms, the term built by
`encode_fixed_gate` evaluates exactly as `TruthTable.evaluate` does on the
corresponding concrete input values; an empty onset yields the constant-false
term, and an all-don't-care cube in the onset forces the value true. -/
theorem encode_fixed_matches_evaluate (tt : TruthTable) (exprs : List BExpr)
    (m : String → Bool) (h1 : 1 ≤ tt.num_inputs)
    (hc : ∀ cube ∈ tt.onset_cubes, cube.length = tt.num_inputs)
    (hlen : exprs.length = tt.num_inputs) :
    ∃ e, encode_fixed_gate exprs tt = some e ∧
      tt.evaluate (exprs.map (evalB m)) = some (evalB m e) ∧
      (tt.onset_cubes = [] → e = .const false) ∧
      (∀ cube ∈ tt.onset_cubes, (∀ ch ∈ cube, ch = '-') → evalB m e = true) := by
  have hb : ∀ cube ∈ tt.onset_cubes, cube.length ≤ exprs.length := by
    intro cube hcu; rw [hlen, hc cube hcu]
  obtain ⟨ts, hts, hev⟩ := cubes_sem m exprs tt.onset_cubes hb
  have hnz : ¬ tt.num_inputs = 0 := by omega
  have hlts := mapMO_length (cubeTerm exprs) tt.onset_cubes ts hts
  obtain ⟨e, henc, hequiv, hcf⟩ :
      ∃ e, encode_fixed_gate exprs tt = some e ∧
        tt.evaluate (exprs.map (evalB m)) = some (evalB m e) ∧
        (tt.onset_cubes = [] → e = .const false) := by
    match ts, hts, hev, hlts with
    | [], hts, hev, hlts =>
      refine ⟨.const false, ?_, ?_, fun _ => rfl⟩
      · simp [encode_fixed_gate, hnz, hts]
      · rw [TruthTable.evaluate]; simpa using hev
    | [t], hts, hev, hlts =>
      refine ⟨t, ?_, ?_, ?_⟩
      · simp [encode_fixed_gate, hnz, hts]
      · rw [TruthTable.evaluate]; simpa using hev
      · intro h; rw [h] at hlts; simp at hlts
    | t1 :: t2 :: ts2, hts, hev, hlts =>
      refine ⟨z3OrL (t1 :: t2 :: ts2), ?_, ?_, ?_⟩
      · simp [encode_fixed_gate, hnz, hts]
      · rw [TruthTable.evaluate, hev, evalB_z3OrL]
      · intro h; rw [h] at hlts; simp at hlts
  refine ⟨e, henc, hequiv, hcf, ?_⟩
  intro cube hcu hdash
  exact evalCubes_true_of_mem (exprs.map (evalB m)) tt.onset_cubes cube (evalB m e) hcu
    (cubeMatch_dash _ cube hdash 0) hequiv

/-- Witness for C5 at the OR table over variable inputs and the all-true
model. -/
theorem encode_fixed_matches_evaluate_witness :
    ∃ e, encode_fixed_gate [.var "a", .var "b"] ttOR = some e ∧
      ttOR.evaluate ([BExpr.var "a", BExpr.var "b"].map (evalB (fun _ => true))) =
        some (evalB (fun _ => true) e) ∧
      (ttOR.onset_cubes = [] → e = .const false) ∧
      (∀ cube ∈ ttOR.onset_cubes, (∀ ch ∈ cube, ch = '-') →
        evalB (fun _ => true) e = true) :=
  encode_fixed_matches_evaluate ttOR [.var "a", .var "b"] (fun _ => true)
    (by decide) (by decide) (by decide)

/-! ## C3: the shape of the per-counterexample SYNTH constraint -/

theorem natMSB_acc (vs : List Bool) : ∀ s : Nat,
    vs.foldl (fun acc b => 2 * acc + (if b then 1 else 0)) s =
      s * 2 ^ vs.length + natMSB vs := by
  induction vs with
  | nil => intro s; simp [natMSB]
  | cons v vs ih =>
    intro s
    have h1 : natMSB (v :: vs) = (if v then 1 else 0) * 2 ^ vs.length + natMSB vs := by
      rw [natMSB, List.foldl_cons, ih]
      simp
    rw [List.foldl_cons, ih, h1]
    cases v <;> (simp [Nat.pow_succ]; try ring)

theorem gpcIndexAux_eq (l : List Bool) : ∀ (n i acc : Nat), i + l.length = n →
    gpcIndexAux n l i acc = acc + natMSB l := by
  induction l with
  | nil => intro n i acc _; simp [gpcIndexAux, natMSB]
  | cons v vs ih =>
    intro n i acc hn
    have hpos : n - 1 - i = vs.length := by simp at hn; omega
    have h1 : natMSB (v :: vs) = (if v then 1 else 0) * 2 ^ vs.length + natMSB vs := by
      rw [natMSB, List.foldl_cons]
      rw [show (2 * 0 + (if v then 1 else 0)) = (if v then 1 else 0) by omega]
      exact natMSB_acc vs _
    rw [gpcIndexAux, ih _ (i + 1) _ (by simp at hn ⊢; omega), h1, hpos]
    cases v <;> (simp; try omega)

/-- The imperative index loop of `get_parameterized_constraint` computes the
binary value of the input bits, first input most significant. -/
theorem gpcIndex_eq_natMSB (vals : List Bool) : gpcIndex vals = natMSB vals := by
  rw [gpcIndex, gpcIndexAux_eq vals vals.length 0 0 (by omega)]
  omega

theorem buildConstraints_spec (implc specc : Circuit) (implVals : String → Option Bool) :
    ∀ (pinfo : List (String × List String)) (cs : List BExpr),
      buildConstraints implc specc implVals pinfo = Except.ok cs →
      cs.length = pinfo.length ∧
      ∀ (i : Nat) (gname : String) (gparams : List String),
        pinfo.get? i = some (gname, gparams) →
        ∃ gate vals sg expected q,
          implc.get_gate gname = some gate ∧
          mapMO implVals gate.inputs = some vals ∧
          specc.get_gate gname = some sg ∧
          evaluate_gate sg.truth_table vals = some expected ∧
          gparams.get? (gpcIndex vals) = some q ∧
          cs.get? i = some (if expected then BExpr.var q else .not (.var q)) := by
  intro pinfo
  induction pinfo with
  | nil =>
    intro cs h
    simp [buildConstraints] at h
    subst h
    exact ⟨rfl, by intro i gname gparams h2; simp at h2⟩
  | cons hd rest ih =>
    intro cs h
    obtain ⟨gname0, gparams0⟩ := hd
    rw [buildConstraints] at h
    cases hg : implc.get_gate gname0 with
    | none => simp only [hg] at h; simp at h
    | some gate0 =>
      simp only [hg] at h
      cases hmv : mapMO implVals gate0.inputs with
      | none => simp only [hmv] at h; simp at h
      | some vals0 =>
        simp only [hmv] at h
        cases hsg : specc.get_gate gname0 with
        | none => simp only [hsg] at h; simp at h
        | some sg0 =>
          simp only [hsg] at h
          cases hex : evaluate_gate sg0.truth_table vals0 with
          | none => simp only [hex] at h; simp at h
          | some expected0 =>
            simp only [hex] at h
            cases hcon : get_parameterized_constraint vals0 expected0
                (gparams0.map BExpr.var) with
            | none => simp only [hcon] at h; simp at h
            | some con0 =>
              simp only [hcon] at h
              cases hrest : buildConstraints implc specc implVals rest with
              | error e => simp only [hrest] at h; simp at h
              | ok cs2 =>
                simp only [hrest] at h
                simp at h
                subst h
                obtain ⟨hlen2, hpt⟩ := ih cs2 hrest
                have hq : ∃ q, gparams0.get? (gpcIndex vals0) = some q ∧
                    con0 = (if expected0 then BExpr.var q else .not (.var q)) := by
                  rw [get_parameterized_constraint] at hcon
                  cases hgp : (gparams0.map BExpr.var).get? (gpcIndex vals0) with
                  | none => simp only [hgp] at hcon; simp at hcon
                  | some p =>
                    simp only [hgp] at hcon
                    simp at hgp
                    obtain ⟨q, hq0, hqp⟩ := hgp
                    refine ⟨q, by simpa using hq0, ?_⟩
                    simp at hcon
                    rw [← hcon, hqp]
                obtain ⟨q, hq1, hq2⟩ := hq
                refine ⟨by simp [hlen2], ?_⟩
                intro i gname gparams hget
                cases i with
                | zero =>
                  simp at hget
                  obtain ⟨he1, he2⟩ := hget
                  subst he1; subst he2
                  exact ⟨gate0, vals0, sg0, expected0, q, hg, hmv, hsg, hex, hq1,
                    by simp [hq2]⟩
                | succ i2 =>
                  simp at hget
                  obtain ⟨g2, v2, s2, e2, q2, hh⟩ := hpt i2 gname gparams (by simpa using hget)
                  exact ⟨g2, v2, s2, e2, q2, hh.1, hh.2.1, hh.2.2.1, hh.2.2.2.1,
                    hh.2.2.2.2.1, by simpa using hh.2.2.2.2.2⟩

/-- C3: whenever an iteration of the loop surfaces a counterexample and falls
through to the next iteration, the term appended to SYNTH is the conjunction
of one constraint per fix-set gate; the constraint for a gate mentions
exactly one parameter — the one indexed (first input most significant) by the
gate's input values under the concrete implementation simulation of the
counterexample — asserted positively when the specification gate's truth
table evaluates to true on those same values, negated otherwise. -/
theorem counterexample_constraint_shape
    (oracle : List BExpr → Option (String → Bool)) (enc : Encoding)
    (it : Nat) (synth s2 : List BExpr) (tvs t2 : List (List (String × Bool)))
    (h : runStep oracle enc it synth tvs = .cont s2 t2) :
    ∃ iv implVals cs con,
      t2 = tvs ++ [iv] ∧
      evaluate_circuit enc.impl_circuit iv = Except.ok implVals ∧
      buildConstraints enc.impl_circuit enc.spec_circuit implVals enc.param_info =
        Except.ok cs ∧
      pyConj cs = some con ∧
      s2 = synth ++ [con] ∧
      cs.length = enc.param_info.length ∧
      (∀ (i : Nat) (gname : String) (gparams : List String),
        enc.param_info.get? i = some (gname, gparams) →
        ∃ gate vals sg expected q,
          enc.impl_circuit.get_gate gname = some gate ∧
          mapMO implVals gate.inputs = some vals ∧
          enc.spec_circuit.get_gate gname = some sg ∧
          evaluate_gate sg.truth_table vals = some expected ∧
          gparams.get? (natMSB vals) = some q ∧
          cs.get? i = some (if expected then BExpr.var q else .not (.var q)) ∧
          varsOf (if expected then BExpr.var q else BExpr.not (.var q)) = [q] ∧
          (∀ mm : String → Bool,
            evalB mm (if expected then BExpr.var q else BExpr.not (.var q)) = true ↔
              mm q = expected)) := by
  rw [runStep] at h
  cases h1 : oracle synth with
  | none => simp only [h1] at h; simp at h
  | some cand =>
    simp only [h1] at h
    cases h2 : oracle [enc.behavior,
        z3AndL (enc.params.map (fun p => BExpr.eq (.var p) (.const (cand p)))),
        .not enc.correctness] with
    | none => simp only [h2] at h; simp at h
    | some cm =>
      simp only [h2] at h
      cases h3 : evaluate_circuit enc.impl_circuit (mkIV enc cm) with
      | error e => simp only [h3] at h; simp at h
      | ok implVals =>
        simp only [h3] at h
        cases h4 : evaluate_circuit enc.spec_circuit (mkIV enc cm) with
        | error e => simp only [h4] at h; simp at h
        | ok w =>
          simp only [h4] at h
          cases h5 : buildConstraints enc.impl_circuit enc.spec_circuit implVals
              enc.param_info with
          | error e => simp only [h5] at h; simp at h
          | ok cs =>
            simp only [h5] at h
            cases h6 : pyConj cs with
            | none => simp only [h6] at h; simp at h
            | some con =>
              simp only [h6] at h
              simp only [StepRes.cont.injEq] at h
              obtain ⟨hs2, ht2⟩ := h
              obtain ⟨hlen, hpt⟩ := buildConstraints_spec _ _ _ _ _ h5
              refine ⟨mkIV enc cm, implVals, cs, con, ht2.symm, h3, h5, h6,
                hs2.symm, hlen, ?_⟩
              intro i gname gparams hget
              obtain ⟨gate, vals, sg, expected, q, hh⟩ := hpt i gname gparams hget
              refine ⟨gate, vals, sg, expected, q, hh.1, hh.2.1, hh.2.2.1,
                hh.2.2.2.1, ?_, hh.2.2.2.2.2, ?_, ?_⟩
              · rw [← gpcIndex_eq_natMSB]; exact hh.2.2.2.2.1
              · cases expected <;> simp [varsOf]
              · intro mm; cases expected <;> cases hmm : mm q <;>
                  simp [evalB, hmm]

/-- Witness for C3 at the first iteration of the end-to-end AND-vs-OR run. -/
theorem counterexample_constraint_shape_witness :
    ∃ iv implVals cs con,
      [[(("a" : String), false), ("b", true)]] = [] ++ [iv] ∧
      evaluate_circuit encAB.impl_circuit iv = Except.ok implVals ∧
      buildConstraints encAB.impl_circuit encAB.spec_circuit implVals encAB.param_info =
        Except.ok cs ∧
      pyConj cs = some con ∧
      [BExpr.var "p_f_1"] = [] ++ [con] ∧
      cs.length = encAB.param_info.length ∧
      (∀ (i : Nat) (gname : String) (gparams : List String),
        encAB.param_info.get? i = some (gname, gparams) →
        ∃ gate vals sg expected q,
          encAB.impl_circuit.get_gate gname = some gate ∧
          mapMO implVals gate.inputs = some vals ∧
          encAB.spec_circuit.get_gate gname = some sg ∧
          evaluate_gate sg.truth_table vals = some expected ∧
          gparams.get? (natMSB vals) = some q ∧
          cs.get? i = some (if expected then BExpr.var q else .not (.var q)) ∧
          varsOf (if expected then BExpr.var q else BExpr.not (.var q)) = [q] ∧
          (∀ mm : String → Bool,
            evalB mm (if expected then BExpr.var q else BExpr.not (.var q)) = true ↔
              mm q = expected)) :=
  counterexample_constraint_shape bruteOracle encAB 1 [] [BExpr.var "p_f_1"]
    [] [[(("a" : String), false), ("b", true)]] rfl

/-! ## C1, amended part: the counterexample list grows monotonically -/

theorem runStep_cont_tvs (oracle : List BExpr → Option (String → Bool)) (enc : Encoding)
    (it : Nat) (synth s2 : List BExpr) (tvs t2 : List (List (String × Bool)))
    (h : runStep oracle enc it synth tvs = .cont s2 t2) :
    ∃ v con, t2 = tvs ++ [v] ∧ s2 = synth ++ [con] := by
  rw [runStep] at h
  cases h1 : oracle synth with
  | none => simp only [h1] at h; simp at h
  | some cand =>
    simp only [h1] at h
    cases h2 : oracle [enc.behavior,
        z3AndL (enc.params.map (fun p => BExpr.eq (.var p) (.const (cand p)))),
        .not enc.correctness] with
    | none => simp only [h2] at h; simp at h
    | some cm =>
      simp only [h2] at h
      cases h3 : evaluate_circuit enc.impl_circuit (mkIV enc cm) with
      | error e => simp only [h3] at h; simp at h
      | ok implVals =>
        simp only [h3] at h
        cases h4 : evaluate_circuit enc.spec_circuit (mkIV enc cm) with
        | error e => simp only [h4] at h; simp at h
        | ok w =>
          simp only [h4] at h
          cases h5 : buildConstraints enc.impl_circuit enc.spec_circuit implVals
              enc.param_info with
          | error e => simp only [h5] at h; simp at h
          | ok cs =>
            simp only [h5] at h
            cases h6 : pyConj cs with
            | none => simp only [h6] at h; simp at h
            | some con =>
              simp only [h6] at h
              simp only [StepRes.cont.injEq] at h
              exact ⟨mkIV enc cm, con, h.2.symm, h.1.symm⟩

theorem runStep_done_tvs (oracle : List BExpr → Option (String → Bool)) (enc : Encoding)
    (it : Nat) (synth : List BExpr) (tvs : List (List (String × Bool))) (r : RunResult)
    (h : runStep oracle enc it synth tvs = .done r) :
    r.test_vectors = none ∨ r.test_vectors = some tvs := by
  rw [runStep] at h
  cases h1 : oracle synth with
  | none =>
    simp only [h1] at h
    simp only [StepRes.done.injEq] at h
    rw [← h]
    exact Or.inl rfl
  | some cand =>
    simp only [h1] at h
    cases h2 : oracle [enc.behavior,
        z3AndL (enc.params.map (fun p => BExpr.eq (.var p) (.const (cand p)))),
        .not enc.correctness] with
    | none =>
      simp only [h2] at h
      simp only [StepRes.done.injEq] at h
      rw [← h]
      exact Or.inr rfl
    | some cm =>
      simp only [h2] at h
      cases h3 : evaluate_circuit enc.impl_circuit (mkIV enc cm) with
      | error e => simp only [h3] at h; simp at h
      | ok implVals =>
        simp only [h3] at h
        cases h4 : evaluate_circuit enc.spec_circuit (mkIV enc cm) with
        | error e => simp only [h4] at h; simp at h
        | ok w =>
          simp only [h4] at h
          cases h5 : buildConstraints enc.impl_circuit enc.spec_circuit implVals
              enc.param_info with
          | error e => simp only [h5] at h; simp at h
          | ok cs =>
            simp only [h5] at h
            cases h6 : pyConj cs with
            | none => simp only [h6] at h; simp at h
            | some con => simp only [h6] at h; simp at h

/-- C1 (amended): in every run, the counterexample list only grows — each
fall-through iteration appends exactly one test vector, and any list of
counterexamples carried by the final result extends the list accumulated at
any intermediate state.  (The pairwise-distinctness part of the original
claim is refuted by `duplicate_counterexample_trace`.) -/
theorem test_vectors_monotone (oracle : List BExpr → Option (String → Bool))
    (enc : Encoding) (it : Nat) (synth : List BExpr)
    (tvs : List (List (String × Bool))) :
    (∀ s2 t2, runStep oracle enc it synth tvs = .cont s2 t2 →
      ∃ v, t2 = tvs ++ [v]) ∧
    (∀ maxIter fuel r l,
      runLoop oracle enc maxIter fuel it synth tvs = Except.ok r →
      r.test_vectors = some l → ∃ rest, l = tvs ++ rest) := by
  constructor
  · intro s2 t2 h
    obtain ⟨v, con, hv, _⟩ := runStep_cont_tvs oracle enc it synth s2 tvs t2 h
    exact ⟨v, hv⟩
  · intro maxIter fuel
    induction fuel generalizing it synth tvs with
    | zero =>
      intro r l h hl
      rw [runLoop] at h
      simp at h
      rw [← h] at hl
      simp at hl
    | succ fuel ih =>
      intro r l h hl
      rw [runLoop] at h
      cases hs : runStep oracle enc it synth tvs with
      | done r0 =>
        simp only [hs] at h
        simp at h
        rw [← h] at hl
        rcases runStep_done_tvs oracle enc it synth tvs r0 hs with h2 | h2
        · rw [h2] at hl; simp at hl
        · rw [h2] at hl
          simp at hl
          exact ⟨[], by simp [← hl]⟩
      | err e => simp only [hs] at h; simp at h
      | cont s2 t2 =>
        simp only [hs] at h
        obtain ⟨rest2, hrest2⟩ := ih (it + 1) s2 t2 r l h hl
        obtain ⟨v, con, hv, _⟩ := runStep_cont_tvs oracle enc it synth s2 tvs t2 hs
        exact ⟨[v] ++ rest2, by rw [hrest2, hv]; simp⟩

/-- Witness for C1 at the end-to-end AND-vs-OR run. -/
theorem test_vectors_monotone_witness :
    ∃ r, runLoop bruteOracle encAB 10 10 1 [] [] = Except.ok r ∧
      ∃ l, r.test_vectors = some l ∧
        ∃ rest, l = ([] : List (List (String × Bool))) ++ rest := by
  refine ⟨_, rfl, _, rfl, ?_⟩
  exact (test_vectors_monotone bruteOracle encAB 1 [] []).2 10 10 _ _ rfl rfl

/-! ## Validity of the brute-force oracle -/

theorem evalB_congr (e : BExpr) : ∀ m1 m2 : String → Bool,
    (∀ v ∈ varsOf e, m1 v = m2 v) → evalB m1 e = evalB m2 e := by
  induction e with
  | const b => intro m1 m2 _; rfl
  | var n => intro m1 m2 h; exact h n (by simp [varsOf])
  | not e ih => intro m1 m2 h; simp [evalB, ih m1 m2 (by simpa [varsOf] using h)]
  | and a b iha ihb =>
    intro m1 m2 h
    have ha := iha m1 m2 (fun v hv => h v (by simp [varsOf]; exact Or.inl hv))
    have hb := ihb m1 m2 (fun v hv => h v (by simp [varsOf]; exact Or.inr hv))
    simp [evalB, ha, hb]
  | or a b iha ihb =>
    intro m1 m2 h
    have ha := iha m1 m2 (fun v hv => h v (by simp [varsOf]; exact Or.inl hv))
    have hb := ihb m1 m2 (fun v hv => h v (by simp [varsOf]; exact Or.inr hv))
    simp [evalB, ha, hb]
  | ite c t e ihc iht ihe =>
    intro m1 m2 h
    have hc := ihc m1 m2 (fun v hv => h v (by simp [varsOf]; exact Or.inl hv))
    have ht := iht m1 m2 (fun v hv => h v (by simp [varsOf]; exact Or.inr (Or.inl hv)))
    have he := ihe m1 m2 (fun v hv => h v (by simp [varsOf]; exact Or.inr (Or.inr hv)))
    simp [evalB, hc, ht, he]
  | eq a b iha ihb =>
    intro m1 m2 h
    have ha := iha m1 m2 (fun v hv => h v (by simp [varsOf]; exact Or.inl hv))
    have hb := ihb m1 m2 (fun v hv => h v (by simp [varsOf]; exact Or.inr hv))
    simp [evalB, ha, hb]

theorem mem_dedupFold : ∀ (xs acc : List String) (y : String),
    (y ∈ xs.foldl (fun a x => if a.contains x then a else a ++ [x]) acc) ↔
      y ∈ acc ∨ y ∈ xs := by
  intro xs
  induction xs with
  | nil => intro acc y; simp
  | cons x xs ih =>
    intro acc y
    rw [List.foldl_cons]
    by_cases hx : acc.contains x
    · rw [if_pos hx, ih]
      constructor
      · rintro (h | h)
        · exact Or.inl h
        · exact Or.inr (List.mem_cons_of_mem _ h)
      · rintro (h | h)
        · exact Or.inl h
        · rcases List.mem_cons.mp h with h2 | h2
          · subst h2; exact Or.inl (by simpa using hx)
          · exact Or.inr h2
    · rw [if_neg hx, ih]
      constructor
      · rintro (h | h)
        · rcases List.mem_append.mp h with h2 | h2
          · exact Or.inl h2
          · simp at h2; subst h2; exact Or.inr (List.mem_cons_self _ _)
        · exact Or.inr (List.mem_cons_of_mem _ h)
      · rintro (h | h)
        · exact Or.inl (List.mem_append.mpr (Or.inl h))
        · rcases List.mem_cons.mp h with h2 | h2
          · subst h2; exact Or.inl (by simp)
          · exact Or.inr h2

theorem mem_collectVars (asserts : List BExpr) (e : BExpr) (he : e ∈ asserts)
    (v : String) (hv : v ∈ varsOf e) : v ∈ collectVars asserts := by
  rw [collectVars, mem_dedupFold]
  refine Or.inr ?_
  rw [List.mem_flatten]
  exact ⟨varsOf e, List.mem_map_of_mem varsOf he, hv⟩

theorem allBoolLists_complete : ∀ (n : Nat) (l : List Bool), l.length = n →
    l ∈ allBoolLists n := by
  intro n
  induction n with
  | zero => intro l h; rw [List.length_eq_zero] at h; subst h; simp [allBoolLists]
  | succ n ih =>
    intro l h
    cases l with
    | nil => simp at h
    | cons b l2 =>
      simp at h
      rw [allBoolLists, List.mem_append]
      cases b with
      | false => exact Or.inl (List.mem_map_of_mem _ (ih l2 h))
      | true => exact Or.inr (List.mem_map_of_mem _ (ih l2 h))

theorem mkAsg_map (m : String → Bool) : ∀ (vs : List String) (v : String), v ∈ vs →
    mkAsg vs (vs.map m) v = m v := by
  intro vs
  induction vs with
  | nil => intro v hv; simp at hv
  | cons u us ih =>
    intro v hv
    rw [mkAsg, List.map_cons, List.zip_cons_cons, assocB]
    by_cases he : v = u
    · rw [if_pos he, he]
    · rw [if_neg he]
      rcases List.mem_cons.mp hv with h2 | h2
      · exact absurd h2 he
      · exact ih v h2

/-- The brute-force oracle satisfies the oracle contract. -/
theorem bruteOracle_valid : OracleValid bruteOracle := by
  intro asserts
  constructor
  · intro m hm e he
    rw [bruteOracle] at hm
    cases hf : (allBoolLists (collectVars asserts).length).find?
        (fun bl => asserts.all (fun e => evalB (mkAsg (collectVars asserts) bl) e)) with
    | none => simp only [hf] at hm; simp at hm
    | some bl =>
      simp only [hf] at hm
      simp at hm
      have hp := List.find?_some hf
      simp only [List.all_eq_true] at hp
      rw [← hm]
      exact hp e he
  · intro hm m
    rw [bruteOracle] at hm
    cases hf : (allBoolLists (collectVars asserts).length).find?
        (fun bl => asserts.all (fun e => evalB (mkAsg (collectVars asserts) bl) e)) with
    | some bl => simp only [hf] at hm; simp at hm
    | none =>
      have hbl : ((collectVars asserts).map m) ∈
          allBoolLists (collectVars asserts).length :=
        allBoolLists_complete _ _ (by simp)
      have hnp := List.find?_eq_none.mp hf _ hbl
      simp only [List.all_eq_true] at hnp
      push_neg at hnp
      obtain ⟨e, he, hev⟩ := hnp
      refine ⟨e, he, ?_⟩
      rw [← evalB_congr e (mkAsg (collectVars asserts) ((collectVars asserts).map m)) m
        (fun v hv => mkAsg_map m _ v (mem_collectVars asserts e he v hv))]
      simpa using hev

/-! ## C9: the empty fix-set -/

/-- C9: for an encoding with no parameters (empty fix-set) and any valid
oracle, the run returns SUCCESS at iteration 1 with an empty counterexample
list when the behavior formula entails correctness (the circuits are
equivalent); and when it does not, the first counterexample reaches the
constraint-building step with an empty constraint list, and `constraints[0]`
raises an uncaught IndexError — no structured FAILED outcome is returned. -/
theorem empty_fix_set_behavior (oracle : List BExpr → Option (String → Bool))
    (enc : Encoding) (maxIter : Nat) (hval : OracleValid oracle)
    (hp : enc.params = []) (hpi : enc.param_info = []) (hmax : 1 ≤ maxIter) :
    ((∀ m, evalB m enc.behavior = true → evalB m enc.correctness = true) →
      ∃ c, cegis.run oracle enc maxIter = Except.ok
        { success := true, model := some c, iterations := 1,
          test_vectors := some [], reason := none }) ∧
    ((∃ m, evalB m enc.behavior = true ∧ evalB m enc.correctness = false) →
      (∀ f : String → Bool,
        (evaluate_circuit enc.impl_circuit (mkIV enc f)).isOk = true ∧
        (evaluate_circuit enc.spec_circuit (mkIV enc f)).isOk = true) →
      cegis.run oracle enc maxIter = Except.error ("IndexError: list index out of range")) := by
  obtain ⟨n, rfl⟩ : ∃ n, maxIter = n + 1 := ⟨maxIter - 1, by omega⟩
  obtain ⟨c, hc⟩ : ∃ c, oracle [] = some c := by
    cases h : oracle [] with
    | some c => exact ⟨c, rfl⟩
    | none =>
      obtain ⟨e, he, _⟩ := (hval []).2 h (fun _ => false)
      simp at he
  have hpins : z3AndL (enc.params.map (fun p => BExpr.eq (.var p) (.const (c p)))) =
      .const true := by rw [hp]; rfl
  constructor
  · intro hequiv
    have hver : oracle [enc.behavior,
        z3AndL (enc.params.map (fun p => BExpr.eq (.var p) (.const (c p)))),
        .not enc.correctness] = none := by
      cases h2 : oracle [enc.behavior,
          z3AndL (enc.params.map (fun p => BExpr.eq (.var p) (.const (c p)))),
          .not enc.correctness] with
      | none => rfl
      | some m =>
        have hall := (hval _).1 m h2
        have hbv := hall enc.behavior (by simp)
        have hnc := hall (.not enc.correctness) (by simp)
        rw [evalB] at hnc
        simp at hnc
        rw [hequiv m hbv] at hnc
        simp at hnc
    refine ⟨c, ?_⟩
    rw [cegis.run, runLoop, runStep, hc]
    simp only [hver]
  · intro hneq heval
    obtain ⟨m0, hm0b, hm0c⟩ := hneq
    obtain ⟨cm, hcm⟩ : ∃ cm, oracle [enc.behavior,
        z3AndL (enc.params.map (fun p => BExpr.eq (.var p) (.const (c p)))),
        .not enc.correctness] = some cm := by
      cases h2 : oracle [enc.behavior,
          z3AndL (enc.params.map (fun p => BExpr.eq (.var p) (.const (c p)))),
          .not enc.correctness] with
      | some cm => exact ⟨cm, rfl⟩
      | none =>
        obtain ⟨e, he, hev⟩ := (hval _).2 h2 m0
        simp at he
        rcases he with h | h | h
        · rw [h, hm0b] at hev; simp at hev
        · rw [h, hpins] at hev; simp [evalB] at hev
        · rw [h] at hev; rw [evalB] at hev; simp [hm0c] at hev
    obtain ⟨iv1, hiv1⟩ : ∃ w, evaluate_circuit enc.impl_circuit (mkIV enc cm) =
        Except.ok w := by
      have := (heval cm).1
      cases h : evaluate_circuit enc.impl_circuit (mkIV enc cm) with
      | error e => rw [h] at this; simp [Except.isOk, Except.toBool] at this
      | ok w => exact ⟨w, rfl⟩
    obtain ⟨iv2, hiv2⟩ : ∃ w, evaluate_circuit enc.spec_circuit (mkIV enc cm) =
        Except.ok w := by
      have := (heval cm).2
      cases h : evaluate_circuit enc.spec_circuit (mkIV enc cm) with
      | error e => rw [h] at this; simp [Except.isOk, Except.toBool] at this
      | ok w => exact ⟨w, rfl⟩
    have hbc : buildConstraints enc.impl_circuit enc.spec_circuit iv1 enc.param_info =
        Except.ok [] := by rw [hpi]; rfl
    rw [cegis.run, runLoop, runStep, hc]
    simp only [hcm, hiv1, hiv2, hbc]
    rfl

/-- Witness for C9: the equivalent buffer pair with empty fix-set succeeds at
iteration 1 with no counterexamples. -/
theorem empty_fix_set_behavior_witness :
    ∃ c, cegis.run bruteOracle encBuf 1 = Except.ok
      { success := true, model := some c, iterations := 1,
        test_vectors := some [], reason := none } := by
  have h := empty_fix_set_behavior bruteOracle encBuf 1 bruteOracle_valid rfl rfl
    (by omega)
  apply h.1
  intro m hb
  have hb2 : encBuf.behavior = BExpr.and (.eq (.var "f") (.var "a"))
      (.and (.eq (.var "f_spec") (.var "a")) (.const true)) := rfl
  have hc2 : encBuf.correctness = .eq (.var "f") (.var "f_spec") := rfl
  rw [hb2] at hb
  rw [hc2]
  simp [evalB] at hb ⊢
  rw [hb.1, hb.2]

/-! ## C7: correctness of `topological_sort` -/

theorem isKey_iff (c : Circuit) (n : String) :
    isKey c n = true ↔ n ∈ c.gates.map Gate.name := by
  rw [isKey, gateDict, Option.isSome_iff_exists]
  constructor
  · rintro ⟨g, hg⟩
    have hmem := List.mem_of_find?_eq_some hg
    have hpred := List.find?_some hg
    simp at hpred
    rw [List.mem_reverse] at hmem
    exact List.mem_map.mpr ⟨g, hmem, hpred⟩
  · rintro hmem
    rw [List.mem_map] at hmem
    obtain ⟨g, hg, hname⟩ := hmem
    cases hf : c.gates.reverse.find? (fun g2 => g2.name == n) with
    | some g2 => exact ⟨g2, rfl⟩
    | none =>
      have := List.find?_eq_none.mp hf g (List.mem_reverse.mpr hg)
      simp [hname] at this

theorem gateDict_spec (c : Circuit) (n : String) (g : Gate)
    (h : gateDict c n = some g) : g ∈ c.gates ∧ g.name = n := by
  have hmem := List.mem_of_find?_eq_some h
  have hpred := List.find?_some h
  simp at hpred
  exact ⟨List.mem_reverse.mp hmem, hpred⟩

theorem name_inj (c : Circuit) (hnd : (c.gates.map Gate.name).Nodup)
    (g1 : Gate) (h1 : g1 ∈ c.gates) (g2 : Gate) (h2 : g2 ∈ c.gates)
    (heq : g1.name = g2.name) : g1 = g2 :=
  List.inj_on_of_nodup_map hnd h1 h2 heq

theorem gateDict_of_mem (c : Circuit) (hnd : (c.gates.map Gate.name).Nodup)
    (g : Gate) (hg : g ∈ c.gates) : gateDict c g.name = some g := by
  have hk : isKey c g.name = true :=
    (isKey_iff c g.name).mpr (List.mem_map_of_mem Gate.name hg)
  rw [isKey, Option.isSome_iff_exists] at hk
  obtain ⟨g2, hg2⟩ := hk
  obtain ⟨hm2, hn2⟩ := gateDict_spec c g.name g2 hg2
  rw [hg2, name_inj c hnd g2 hm2 g hg hn2]

theorem processDeps_spec : ∀ (ds : List String) (indeg : String → Int)
    (ready : List String),
    (∀ n, (processDeps indeg ready ds).1 n = indeg n - ds.count n) ∧
    ∃ extra, (processDeps indeg ready ds).2 = ready ++ extra ∧ extra.Nodup ∧
      (∀ n, n ∈ extra ↔ 0 < indeg n ∧ indeg n ≤ (ds.count n : Int)) := by
  intro ds
  induction ds with
  | nil =>
    intro indeg ready
    exact ⟨fun n => by simp [processDeps], [], by simp [processDeps], List.nodup_nil,
      fun n => by simp⟩
  | cons d ds ih =>
    intro indeg ready
    have hstep : processDeps indeg ready (d :: ds) =
        processDeps (fun m => if m = d then indeg d - 1 else indeg m)
          (if indeg d - 1 = 0 then ready ++ [d] else ready) ds := rfl
    obtain ⟨ih1, extra2, ihr, ihnd, ihc⟩ :=
      ih (fun m => if m = d then indeg d - 1 else indeg m)
        (if indeg d - 1 = 0 then ready ++ [d] else ready)
    constructor
    · intro n
      rw [hstep, ih1 n]
      by_cases hn : n = d
      · subst hn; simp [List.count_cons]; omega
      · simp [hn, List.count_cons, Ne.symm hn]
    · refine ⟨(if indeg d - 1 = 0 then [d] else []) ++ extra2, ?_, ?_, ?_⟩
      · rw [hstep, ihr]
        by_cases hd : indeg d - 1 = 0 <;> simp [hd]
      · rw [List.nodup_append]
        refine ⟨?_, ihnd, ?_⟩
        · by_cases hd : indeg d - 1 = 0 <;> simp [hd]
        · intro x hx
          by_cases hd : indeg d - 1 = 0
          · rw [if_pos hd] at hx
            simp at hx
            subst hx
            rw [ihc]
            simp
            intro h0
            omega
          · rw [if_neg hd] at hx
            simp at hx
      · intro n
        rw [List.mem_append, ihc]
        by_cases hn : n = d
        · subst hn
          by_cases hd : indeg n - 1 = 0 <;>
            simp [hd, List.count_cons] <;> omega
        · simp [hn, List.count_cons, Ne.symm hn]

theorem initStepAux_fst (c : Circuit) (gname : String) : ∀ (ins : List String)
    (f : String → Int) (d : String → List String) (n : String),
    (ins.foldl (fun (st2 : (String → Int) × (String → List String)) inp =>
      if isKey c inp then
        (fun m => if m = gname then st2.1 m + 1 else st2.1 m,
         fun m => if m = inp then st2.2 m ++ [gname] else st2.2 m)
      else st2) (f, d)).1 n =
      f n + (if n = gname then ((ins.filter (fun i => isKey c i)).length : Int) else 0) := by
  intro ins
  induction ins with
  | nil => intro f d n; simp
  | cons inp ins ih =>
    intro f d n
    rw [List.foldl_cons]
    by_cases hk : isKey c inp
    · rw [if_pos hk, ih]
      by_cases hn : n = gname <;> (simp [hn, hk]; try omega)
    · rw [if_neg hk, ih]
      by_cases hn : n = gname <;> simp [hn, hk]

theorem initStepAux_count (c : Circuit) (gname : String) : ∀ (ins : List String)
    (f : String → Int) (d : String → List String) (u n : String),
    ((ins.foldl (fun (st2 : (String → Int) × (String → List String)) inp =>
      if isKey c inp then
        (fun m => if m = gname then st2.1 m + 1 else st2.1 m,
         fun m => if m = inp then st2.2 m ++ [gname] else st2.2 m)
      else st2) (f, d)).2 u).count n =
      (d u).count n +
        (if n = gname ∧ isKey c u then (ins.filter (fun i => i == u)).length else 0) := by
  intro ins
  induction ins with
  | nil => intro f d u n; simp
  | cons inp ins ih =>
    intro f d u n
    rw [List.foldl_cons]
    by_cases hk : isKey c inp
    · rw [if_pos hk, ih]
      simp only []
      by_cases hu : u = inp
      · subst hu
        rw [if_pos rfl, List.count_append, List.filter_cons]
        by_cases hn : n = gname <;>
          (simp [hn, hk, List.count_cons]; try omega)
      · have hu2 : ¬ inp = u := fun h => hu h.symm
        rw [if_neg hu, List.filter_cons]
        by_cases hn : n = gname <;> by_cases hku : isKey c u <;>
          (simp [hn, hku, hu, hu2]; try omega)
    · rw [if_neg hk, ih]
      by_cases hu : u = inp
      · subst hu
        simp [hk, List.filter_cons]
      · have hu2 : ¬ inp = u := fun h => hu h.symm
        by_cases hn : n = gname <;> by_cases hku : isKey c u <;>
          (simp [hn, hku, hu, hu2, List.filter_cons]; try omega)

theorem initStepAux_mem (c : Circuit) (gname : String) : ∀ (ins : List String)
    (f : String → Int) (d : String → List String) (u x : String),
    x ∈ (ins.foldl (fun (st2 : (String → Int) × (String → List String)) inp =>
      if isKey c inp then
        (fun m => if m = gname then st2.1 m + 1 else st2.1 m,
         fun m => if m = inp then st2.2 m ++ [gname] else st2.2 m)
      else st2) (f, d)).2 u →
      x ∈ d u ∨ x = gname := by
  intro ins
  induction ins with
  | nil => intro f d u x h; exact Or.inl h
  | cons inp ins ih =>
    intro f d u x h
    rw [List.foldl_cons] at h
    by_cases hk : isKey c inp
    · rw [if_pos hk] at h
      rcases ih _ _ u x h with h2 | h2
      · by_cases hu : u = inp
        · rw [hu] at h2
          simp at h2
          rcases h2 with h3 | h3
          · exact Or.inl (hu ▸ h3)
          · exact Or.inr h3
        · simp [hu] at h2
          exact Or.inl h2
      · exact Or.inr h2
    · rw [if_neg hk] at h
      exact ih _ _ u x h

theorem initStep_fst (c : Circuit) (g : Gate) (f : String → Int)
    (d : String → List String) (n : String) :
    (initStep c (f, d) g).1 n = f n + (if n = g.name then (keyCount c g : Int) else 0) :=
  initStepAux_fst c g.name g.inputs f d n

theorem initStep_count (c : Circuit) (g : Gate) (f : String → Int)
    (d : String → List String) (u n : String) :
    ((initStep c (f, d) g).2 u).count n = (d u).count n +
      (if n = g.name ∧ isKey c u then countIn g u else 0) :=
  initStepAux_count c g.name g.inputs f d u n

theorem initStep_mem (c : Circuit) (g : Gate) (f : String → Int)
    (d : String → List String) (u x : String)
    (h : x ∈ (initStep c (f, d) g).2 u) : x ∈ d u ∨ x = g.name :=
  initStepAux_mem c g.name g.inputs f d u x h

theorem initOuter_fst (c : Circuit) : ∀ (gs : List Gate) (f : String → Int)
    (d : String → List String) (n : String),
    (gs.foldl (initStep c) (f, d)).1 n =
      f n + ((gs.filter (fun g => g.name == n)).map (fun g => (keyCount c g : Int))).sum := by
  intro gs
  induction gs with
  | nil => intro f d n; simp
  | cons g gs ih =>
    intro f d n
    rw [List.foldl_cons]
    have hsplit : initStep c (f, d) g =
        ((initStep c (f, d) g).1, (initStep c (f, d) g).2) := rfl
    rw [hsplit, ih, initStep_fst, List.filter_cons]
    by_cases hn : g.name = n
    · simp [hn, List.sum_cons]
      omega
    · have hn2 : ¬ n = g.name := fun h => hn h.symm
      simp [hn, hn2]

theorem initOuter_count (c : Circuit) : ∀ (gs : List Gate) (f : String → Int)
    (d : String → List String) (u n : String),
    ((gs.foldl (initStep c) (f, d)).2 u).count n = (d u).count n +
      (if isKey c u then
        ((gs.filter (fun g => g.name == n)).map (fun g => countIn g u)).sum else 0) := by
  intro gs
  induction gs with
  | nil => intro f d u n; simp
  | cons g gs ih =>
    intro f d u n
    rw [List.foldl_cons]
    have hsplit : initStep c (f, d) g =
        ((initStep c (f, d) g).1, (initStep c (f, d) g).2) := rfl
    rw [hsplit, ih, initStep_count, List.filter_cons]
    by_cases hn : g.name = n
    · simp only [hn, beq_self_eq_true, if_pos rfl, List.map_cons, List.sum_cons]
      by_cases hku : isKey c u <;> (simp [hku]; try omega)
    · have hn2 : ¬ n = g.name := fun h => hn h.symm
      have : (g.name == n) = false := by simp [hn]
      rw [this]
      simp only [Bool.false_eq_true, if_false]
      by_cases hku : isKey c u <;> simp [hku, hn2]

theorem initOuter_mem (c : Circuit) : ∀ (gs : List Gate) (f : String → Int)
    (d : String → List String) (u x : String),
    x ∈ (gs.foldl (initStep c) (f, d)).2 u → x ∈ d u ∨ x ∈ gs.map Gate.name := by
  intro gs
  induction gs with
  | nil => intro f d u x h; exact Or.inl h
  | cons g gs ih =>
    intro f d u x h
    rw [List.foldl_cons] at h
    have hsplit : initStep c (f, d) g =
        ((initStep c (f, d) g).1, (initStep c (f, d) g).2) := rfl
    rw [hsplit] at h
    rcases ih _ _ u x h with h2 | h2
    · rcases initStep_mem c g f d u x h2 with h3 | h3
      · exact Or.inl h3
      · exact Or.inr (by simp [h3])
    · exact Or.inr (by simp at h2 ⊢; exact Or.inr h2)

theorem filter_name_single (c : Circuit) (hnd : (c.gates.map Gate.name).Nodup)
    (g : Gate) (hg : g ∈ c.gates) :
    c.gates.filter (fun g2 => g2.name == g.name) = [g] := by
  have h1 : ∀ (l : List Gate), (l.map Gate.name).Nodup → g ∈ l →
      l.filter (fun g2 => g2.name == g.name) = [g] := by
    intro l
    induction l with
    | nil => intro _ h; simp at h
    | cons a l ih =>
      intro hnd2 hmem
      rw [List.map_cons, List.nodup_cons] at hnd2
      rcases List.mem_cons.mp hmem with h | h
      · subst h
        rw [List.filter_cons, if_pos (by simp)]
        have hnil : l.filter (fun g2 => g2.name == g.name) = [] := by
          rw [List.filter_eq_nil_iff]
          intro g2 hg2
          simp
          intro he
          exact hnd2.1 (he ▸ List.mem_map_of_mem Gate.name hg2)
        rw [hnil]
      · have hne : ¬ (a.name == g.name) = true := by
          simp
          intro he
          exact hnd2.1 (he ▸ List.mem_map_of_mem Gate.name h)
        rw [List.filter_cons, if_neg hne]
        exact ih hnd2.2 h
  exact h1 c.gates hnd hg

theorem indeg0_spec (c : Circuit) (hnd : (c.gates.map Gate.name).Nodup)
    (g : Gate) (hg : g ∈ c.gates) :
    (initDegreeDeps c).1 g.name = (keyCount c g : Int) := by
  rw [initDegreeDeps, initOuter_fst, filter_name_single c hnd g hg]
  simp

theorem deps0_count (c : Circuit) (hnd : (c.gates.map Gate.name).Nodup)
    (g : Gate) (hg : g ∈ c.gates) (u : String) :
    ((initDegreeDeps c).2 u).count g.name =
      (if isKey c u then countIn g u else 0) := by
  rw [initDegreeDeps, initOuter_count, filter_name_single c hnd g hg]
  by_cases hku : isKey c u <;> simp [hku]

theorem deps0_mem (c : Circuit) (u x : String)
    (h : x ∈ (initDegreeDeps c).2 u) : x ∈ c.gates.map Gate.name := by
  rcases initOuter_mem c c.gates _ _ u x h with h2 | h2
  · simp at h2
  · exact h2

theorem remCount_nil (c : Circuit) (g : Gate) : remCount c g [] = keyCount c g := by
  rw [remCount, keyCount]
  simp

theorem remCount_zero_iff (c : Circuit) (g : Gate) (S : List String) :
    remCount c g S = 0 ↔ ∀ inp ∈ g.inputs, isKey c inp = true → inp ∈ S := by
  rw [remCount, List.length_eq_zero, List.filter_eq_nil_iff]
  constructor
  · intro h inp hmem hkey
    have := h inp hmem
    simp [hkey] at this
    exact this
  · intro h inp hmem
    simp
    intro hkey
    exact h inp hmem hkey

theorem remCount_append (c : Circuit) (g : Gate) (S : List String) (u : String)
    (hku : isKey c u = true) (hS : u ∉ S) :
    remCount c g S = remCount c g (S ++ [u]) + countIn g u := by
  rw [remCount, remCount, countIn]
  induction g.inputs with
  | nil => simp
  | cons inp ins ih =>
    rw [List.filter_cons, List.filter_cons, List.filter_cons]
    by_cases hu : inp = u
    · have h1 : (isKey c inp && !(S.contains inp)) = true := by
        simp [hu, hku, hS]
      have h2 : (isKey c inp && !((S ++ [u]).contains inp)) = false := by
        simp [hu]
      have h3 : (inp == u) = true := by simp [hu]
      rw [h1, h2, h3]
      simp only [if_true, Bool.false_eq_true, if_false, List.length_cons]
      omega
    · have hcc : ((S ++ [u]).contains inp) = (S.contains inp) := by
        simp [hu]
      have h3 : (inp == u) = false := by simp [hu]
      rw [h3, hcc]
      simp only [Bool.false_eq_true, if_false]
      by_cases hk2 : (isKey c inp && !(S.contains inp)) = true
      · rw [if_pos hk2, if_pos hk2]
        simp only [List.length_cons]
        omega
      · rw [if_neg hk2, if_neg hk2]
        exact ih

theorem countIn_pos_remCount (c : Circuit) (g : Gate) (S : List String) (u : String)
    (hku : isKey c u = true) (hS : u ∉ S) (hpos : 0 < countIn g u) :
    0 < remCount c g S := by
  rw [countIn] at hpos
  rw [remCount]
  rw [List.length_pos] at hpos ⊢
  intro hnil
  apply hpos
  rw [List.filter_eq_nil_iff] at hnil ⊢
  intro inp hmem
  simp
  intro he
  have := hnil inp hmem
  subst he
  simp [hku, hS] at this

theorem mapSum_mono (f f2 : String → Nat) : ∀ (L : List String),
    (∀ n ∈ L, f2 n ≤ f n) → (L.map f2).sum ≤ (L.map f).sum := by
  intro L
  induction L with
  | nil => intro _; simp
  | cons a L ih =>
    intro h
    simp only [List.map_cons, List.sum_cons]
    have h1 := h a (List.mem_cons_self _ _)
    have h2 := ih (fun n hn => h n (List.mem_cons_of_mem _ hn))
    omega

theorem sum_sub_of_extra (f f2 : String → Nat) : ∀ (extra L : List String),
    L.Nodup → extra.Nodup → (∀ n ∈ extra, n ∈ L) →
    (∀ n ∈ extra, f2 n + 1 ≤ f n) → (∀ n ∈ L, f2 n ≤ f n) →
    (L.map f2).sum + extra.length ≤ (L.map f).sum := by
  intro extra
  induction extra with
  | nil =>
    intro L _ _ _ _ hmono
    have h2 := mapSum_mono f f2 L hmono
    simp only [List.length_nil]
    omega
  | cons e es ih =>
    intro L hL hE hsub hdec hmono
    rw [List.nodup_cons] at hE
    obtain ⟨l1, l2, rfl⟩ := List.append_of_mem (hsub e (List.mem_cons_self _ _))
    have hL2 : (l1 ++ l2).Nodup :=
      List.Nodup.sublist (List.Sublist.append_left (List.sublist_cons_self e l2) l1) hL
    have hesub : ∀ n ∈ es, n ∈ l1 ++ l2 := by
      intro n hn
      have hmem := hsub n (List.mem_cons_of_mem _ hn)
      rw [List.mem_append] at hmem ⊢
      rcases hmem with h | h
      · exact Or.inl h
      · rcases List.mem_cons.mp h with h2 | h2
        · exact absurd (h2 ▸ hn) hE.1
        · exact Or.inr h2
    have hih := ih (l1 ++ l2) hL2 hE.2 hesub
      (fun n hn => hdec n (List.mem_cons_of_mem _ hn))
      (fun n hn => hmono n (by
        rw [List.mem_append] at hn
        rcases hn with h | h
        · exact List.mem_append.mpr (Or.inl h)
        · exact List.mem_append.mpr (Or.inr (List.mem_cons_of_mem _ h))))
    have he1 := hdec e (List.mem_cons_self _ _)
    simp only [List.map_append, List.sum_append, List.map_cons, List.sum_cons,
      List.length_cons] at *
    omega

theorem kahnInv_init (c : Circuit) (hnd : (c.gates.map Gate.name).Nodup) :
    KahnInv c (initDegreeDeps c).1
      ((c.gates.filter (fun g => (initDegreeDeps c).1 g.name == 0)).map (fun g => g.name))
      [] := by
  constructor
  · intro n hn
    rw [List.mem_map] at hn
    obtain ⟨g, hg, rfl⟩ := hn
    exact List.mem_map_of_mem Gate.name (List.mem_of_mem_filter hg)
  · simp only [List.map_nil, List.nil_append]
    have hsb : List.Sublist (c.gates.filter (fun g => (initDegreeDeps c).1 g.name == 0))
        c.gates := List.filter_sublist c.gates
    have hsb2 : List.Sublist
        ((c.gates.filter (fun g => (initDegreeDeps c).1 g.name == 0)).map (fun g => g.name))
        (c.gates.map Gate.name) := List.Sublist.map _ hsb
    exact List.Nodup.sublist hsb2 hnd
  · intro g hg; simp at hg
  · intro g hg
    rw [indeg0_spec c hnd g hg]
    simp [remCount_nil]
  · intro n hn
    rw [List.mem_map] at hn
    obtain ⟨g, hg, rfl⟩ := hn
    rw [List.mem_filter] at hg
    have := hg.2
    simpa using this
  · intro g hg; simp at hg
  · intro l1 g l2 h
    cases l1 <;> simp at h
  · intro n hn hle
    right
    rw [List.mem_map] at hn
    obtain ⟨g, hg, rfl⟩ := hn
    have heq := indeg0_spec c hnd g hg
    have hzero : (initDegreeDeps c).1 g.name = 0 := by omega
    rw [List.mem_map]
    refine ⟨g, ?_, rfl⟩
    rw [List.mem_filter]
    exact ⟨hg, by simp [hzero]⟩

theorem append_single_split {α : Type} (sorted l1 l2 : List α) (gu g : α)
    (h : sorted ++ [gu] = l1 ++ g :: l2) :
    (sorted = l1 ∧ g = gu ∧ l2 = []) ∨ ∃ l3, sorted = l1 ++ g :: l3 := by
  rcases List.eq_nil_or_concat l2 with h2 | ⟨l3, x, rfl⟩
  · subst h2
    left
    have hr := congrArg List.reverse h
    simp only [List.reverse_append, List.reverse_cons, List.reverse_nil,
      List.nil_append, List.reverse_singleton, List.singleton_append] at hr
    rw [List.cons.injEq] at hr
    obtain ⟨hg, hrest⟩ := hr
    refine ⟨?_, hg.symm, rfl⟩
    have := congrArg List.reverse hrest
    simpa using this
  · right
    have h2 : sorted ++ [gu] = (l1 ++ g :: l3) ++ [x] := by
      rw [h]
      simp [List.concat_eq_append]
    have hr := congrArg List.reverse h2
    simp only [List.reverse_append, List.reverse_singleton, List.singleton_append] at hr
    rw [List.cons.injEq] at hr
    have := congrArg List.reverse hr.2
    simp at this
    exact ⟨l3, by rw [this]⟩

theorem kahnInv_step (c : Circuit) (hnd : (c.gates.map Gate.name).Nodup)
    (indeg : String → Int) (u : String) (rest : List String) (sorted : List Gate)
    (hinv : KahnInv c indeg (u :: rest) sorted) :
    ∃ gu, gateDict c u = some gu ∧ gu ∈ c.gates ∧ gu.name = u ∧
      KahnInv c (processDeps indeg rest ((initDegreeDeps c).2 u)).1
        (processDeps indeg rest ((initDegreeDeps c).2 u)).2 (sorted ++ [gu]) ∧
      kahnMeasure c (processDeps indeg rest ((initDegreeDeps c).2 u)).1
        (processDeps indeg rest ((initDegreeDeps c).2 u)).2 + 1 ≤
        kahnMeasure c indeg (u :: rest) := by
  have huL : u ∈ c.gates.map Gate.name := hinv.readyL u (List.mem_cons_self _ _)
  obtain ⟨gu, hgu_mem, hgu_name⟩ : ∃ g, g ∈ c.gates ∧ g.name = u := by
    rw [List.mem_map] at huL
    obtain ⟨g, hg, he⟩ := huL
    exact ⟨g, hg, he⟩
  have huL2 : u ∈ c.gates.map Gate.name := huL
  have hdict : gateDict c u = some gu := by
    rw [← hgu_name]
    exact gateDict_of_mem c hnd gu hgu_mem
  have hkeyu : isKey c u = true := (isKey_iff c u).mpr huL
  have hnodup := hinv.nodup
  rw [List.nodup_append] at hnodup
  have huS : u ∉ sorted.map Gate.name := by
    intro h
    exact hnodup.2.2 h (List.mem_cons_self _ _)
  have hurest : u ∉ rest := by
    have := hnodup.2.1
    rw [List.nodup_cons] at this
    exact this.1
  have hzeroS : ∀ n ∈ sorted.map Gate.name, indeg n = 0 := by
    intro n hn
    rw [List.mem_map] at hn
    obtain ⟨g2, hg2, rfl⟩ := hn
    rw [hinv.degEq g2 (hinv.sortedMem g2 hg2)]
    have hrc : remCount c g2 (sorted.map Gate.name) = 0 := by
      rw [remCount_zero_iff]
      intro inp hinp hk
      exact hinv.closed g2 hg2 inp hinp hk
    simp [hrc]
  obtain ⟨pd1, extra, hre, hnd_extra, hchar⟩ :=
    processDeps_spec ((initDegreeDeps c).2 u) indeg rest
  have hextraL : ∀ n ∈ extra, n ∈ c.gates.map Gate.name := by
    intro n hn
    have hc2 := (hchar n).mp hn
    have hcount : 0 < ((initDegreeDeps c).2 u).count n := by
      have h1 := hc2.1
      have h2 := hc2.2
      omega
    exact deps0_mem c u n (List.count_pos_iff.mp hcount)
  have hextra_pos : ∀ n ∈ extra, 0 < indeg n := fun n hn => ((hchar n).mp hn).1
  have hextra_newS : ∀ n ∈ extra, n ∉ sorted.map Gate.name := by
    intro n hn h
    have h1 := hzeroS n h
    have h2 := hextra_pos n hn
    omega
  have hextra_newR : ∀ n ∈ extra, n ∉ u :: rest := by
    intro n hn h
    have h1 := hinv.readyZero n h
    have h2 := hextra_pos n hn
    omega
  have hcnt : ∀ g2 ∈ c.gates, ((initDegreeDeps c).2 u).count g2.name = countIn g2 u := by
    intro g2 hg2
    rw [deps0_count c hnd g2 hg2 u, if_pos hkeyu]
  have hdeg2 : ∀ g2 ∈ c.gates,
      (processDeps indeg rest ((initDegreeDeps c).2 u)).1 g2.name =
        (remCount c g2 (sorted.map Gate.name ++ [u]) : Int) := by
    intro g2 hg2
    rw [pd1 g2.name, hcnt g2 hg2, hinv.degEq g2 hg2]
    have hr := remCount_append c g2 (sorted.map Gate.name) u hkeyu huS
    omega
  have hSnew : (sorted ++ [gu]).map Gate.name = sorted.map Gate.name ++ [u] := by
    rw [List.map_append]
    simp [hgu_name]
  have hguzero : remCount c gu (sorted.map Gate.name) = 0 := by
    have h1 := hinv.degEq gu hgu_mem
    have h2 := hinv.readyZero u (List.mem_cons_self _ _)
    rw [hgu_name] at h1
    rw [h2] at h1
    omega
  have hrest_zero : ∀ n ∈ rest,
      (processDeps indeg rest ((initDegreeDeps c).2 u)).1 n = 0 := by
    intro n hn
    have hnL : n ∈ c.gates.map Gate.name := hinv.readyL n (List.mem_cons_of_mem _ hn)
    rw [List.mem_map] at hnL
    obtain ⟨g2, hg2, rfl⟩ := hnL
    rw [pd1 g2.name, hcnt g2 hg2]
    have h0 : indeg g2.name = 0 := hinv.readyZero _ (List.mem_cons_of_mem _ hn)
    have hci : countIn g2 u = 0 := by
      by_contra hpos0
      have hpos : 0 < countIn g2 u := Nat.pos_of_ne_zero hpos0
      have h1 := countIn_pos_remCount c g2 (sorted.map Gate.name) u hkeyu huS hpos
      have h2 := hinv.degEq g2 hg2
      omega
    rw [hci]
    omega
  have hextra_zero : ∀ n ∈ extra,
      (processDeps indeg rest ((initDegreeDeps c).2 u)).1 n = 0 := by
    intro n hn
    have hle : (processDeps indeg rest ((initDegreeDeps c).2 u)).1 n ≤ 0 := by
      rw [pd1 n]
      have := ((hchar n).mp hn).2
      omega
    have hnL := hextraL n hn
    rw [List.mem_map] at hnL
    obtain ⟨g2, hg2, rfl⟩ := hnL
    have := hdeg2 g2 hg2
    omega
  refine ⟨gu, hdict, hgu_mem, hgu_name, ⟨?_, ?_, ?_, ?_, ?_, ?_, ?_, ?_⟩, ?_⟩
  · rw [hre]
    intro n hn
    rcases List.mem_append.mp hn with h | h
    · exact hinv.readyL n (List.mem_cons_of_mem _ h)
    · exact hextraL n h
  · rw [hSnew, hre]
    have heq : sorted.map Gate.name ++ [u] ++ (rest ++ extra) =
        (sorted.map Gate.name ++ u :: rest) ++ extra := by
      simp
    rw [heq]
    refine List.Nodup.append hinv.nodup hnd_extra ?_
    intro a ha hae
    rcases List.mem_append.mp ha with h | h
    · exact hextra_newS a hae h
    · exact hextra_newR a hae h
  · intro g2 hg2
    rcases List.mem_append.mp hg2 with h | h
    · exact hinv.sortedMem g2 h
    · simp at h
      rw [h]
      exact hgu_mem
  · intro g2 hg2
    rw [hSnew]
    exact hdeg2 g2 hg2
  · rw [hre]
    intro n hn
    rcases List.mem_append.mp hn with h | h
    · exact hrest_zero n h
    · exact hextra_zero n h
  · intro g2 hg2 inp hinp hk
    rw [hSnew]
    rcases List.mem_append.mp hg2 with h | h
    · exact List.mem_append.mpr (Or.inl (hinv.closed g2 h inp hinp hk))
    · simp at h
      subst h
      rw [remCount_zero_iff] at hguzero
      exact List.mem_append.mpr (Or.inl (hguzero inp hinp hk))
  · intro l1 g l2 hsplit
    rcases append_single_split sorted l1 l2 gu g hsplit with ⟨hso, hg, _⟩ | ⟨l3, heq⟩
    · subst hso
      subst hg
      intro p hp hpname
      have hkp : isKey c p.name = true :=
        (isKey_iff c p.name).mpr (List.mem_map_of_mem Gate.name hp)
      rw [remCount_zero_iff] at hguzero
      have hpS := hguzero p.name hpname hkp
      rw [List.mem_map] at hpS
      obtain ⟨g3, hg3, hname3⟩ := hpS
      rw [name_inj c hnd p hp g3 (hinv.sortedMem g3 hg3) hname3.symm]
      exact hg3
    · exact hinv.ordered l1 g l3 heq
  · intro n hnL hle
    rw [hSnew, hre]
    by_cases h0 : indeg n ≤ 0
    · rcases hinv.lowMem n hnL h0 with h | h
      · exact Or.inl (List.mem_append.mpr (Or.inl h))
      · rcases List.mem_cons.mp h with h2 | h2
        · exact Or.inl (List.mem_append.mpr (Or.inr (by simp [h2])))
        · exact Or.inr (List.mem_append.mpr (Or.inl h2))
    · push_neg at h0
      rw [pd1 n] at hle
      refine Or.inr (List.mem_append.mpr (Or.inr ?_))
      rw [hchar n]
      constructor
      · exact h0
      · omega
  · rw [kahnMeasure, kahnMeasure, hre]
    have hsum := sum_sub_of_extra
      (fun n => (indeg n).toNat)
      (fun n => ((processDeps indeg rest ((initDegreeDeps c).2 u)).1 n).toNat)
      extra (c.gates.map Gate.name) hnd hnd_extra hextraL
      (fun n hn => by
        have h1 := hextra_pos n hn
        have h2 := ((hchar n).mp hn).2
        have h3 := pd1 n
        simp only []
        omega)
      (fun n _ => by
        have h3 := pd1 n
        simp only []
        omega)
    simp only [List.length_append, List.length_cons]
    omega

theorem kahn_master (c : Circuit) (hnd : (c.gates.map Gate.name).Nodup) :
    ∀ (fuel : Nat) (indeg : String → Int) (ready : List String) (sorted : List Gate),
      KahnInv c indeg ready sorted →
      kahnMeasure c indeg ready ≤ fuel →
      ∃ indeg2 sorted2,
        kahnLoop (gateDict c) (initDegreeDeps c).2 fuel indeg ready sorted =
          (indeg2, sorted2, []) ∧
        KahnInv c indeg2 [] sorted2 ∧ ∃ tail, sorted2 = sorted ++ tail := by
  intro fuel
  induction fuel with
  | zero =>
    intro indeg ready sorted hinv hm
    have hready : ready = [] := by
      rw [kahnMeasure] at hm
      rw [← List.length_eq_zero]
      omega
    subst hready
    exact ⟨indeg, sorted, rfl, hinv, [], by simp⟩
  | succ fuel ih =>
    intro indeg ready sorted hinv hm
    cases ready with
    | nil => exact ⟨indeg, sorted, rfl, hinv, [], by simp⟩
    | cons u rest =>
      obtain ⟨gu, hdict, hmem, hname, hinv2, hmeas⟩ :=
        kahnInv_step c hnd indeg u rest sorted hinv
      have hloop : kahnLoop (gateDict c) (initDegreeDeps c).2 (fuel + 1) indeg
          (u :: rest) sorted =
          kahnLoop (gateDict c) (initDegreeDeps c).2 fuel
            (processDeps indeg rest ((initDegreeDeps c).2 u)).1
            (processDeps indeg rest ((initDegreeDeps c).2 u)).2
            (sorted ++ [gu]) := by
        rw [kahnLoop]
        simp only [hdict]
      rw [hloop]
      obtain ⟨i2, s2, heq, hinv3, tail, ht⟩ := ih _ _ _ hinv2 (by omega)
      exact ⟨i2, s2, heq, hinv3, [gu] ++ tail, by rw [ht]; simp⟩

theorem mapSum_monoG {A : Type} (f f2 : A → Nat) : ∀ (L : List A),
    (∀ n ∈ L, f2 n ≤ f n) → (L.map f2).sum ≤ (L.map f).sum := by
  intro L
  induction L with
  | nil => intro _; simp
  | cons a L ih =>
    intro h
    simp only [List.map_cons, List.sum_cons]
    have h1 := h a (List.mem_cons_self _ _)
    have h2 := ih (fun n hn => h n (List.mem_cons_of_mem _ hn))
    omega

theorem kahn_final (c : Circuit) (hnd : (c.gates.map Gate.name).Nodup) :
    ∃ indeg2 sorted2, kahnRun c = (indeg2, sorted2, []) ∧
      KahnInv c indeg2 [] sorted2 := by
  have hμ : kahnMeasure c (initDegreeDeps c).1
      ((c.gates.filter (fun g => (initDegreeDeps c).1 g.name == 0)).map
        (fun g => g.name)) ≤ kahnFuel c := by
    rw [kahnMeasure, kahnFuel]
    have hlen : ((c.gates.filter (fun g => (initDegreeDeps c).1 g.name == 0)).map
        (fun g => g.name)).length ≤ c.gates.length := by
      rw [List.length_map]
      exact List.length_filter_le _ _
    have hsum : ((c.gates.map Gate.name).map
        (fun n => ((initDegreeDeps c).1 n).toNat)).sum ≤ totalInputs c := by
      rw [List.map_map, totalInputs]
      apply mapSum_monoG
      intro g hg
      simp only [Function.comp]
      rw [indeg0_spec c hnd g hg]
      simp only [Int.toNat_natCast]
      rw [keyCount]
      exact List.length_filter_le _ _
    have hsq : c.gates.length + 2 * totalInputs c ≤
        (c.gates.length + totalInputs c + 1) ^ 2 := by
      nlinarith [sq_nonneg (c.gates.length + totalInputs c + 1)]
    omega
  obtain ⟨i2, s2, heq, hinv, _⟩ := kahn_master c hnd (kahnFuel c)
    (initDegreeDeps c).1
    ((c.gates.filter (fun g => (initDegreeDeps c).1 g.name == 0)).map (fun g => g.name))
    [] (kahnInv_init c hnd) hμ
  exact ⟨i2, s2, by rw [kahnRun]; exact heq, hinv⟩

theorem cycle_not_covered (c : Circuit) (hnd : (c.gates.map Gate.name).Nodup)
    (S : List String)
    (hS : ∀ n ∈ S, ∃ g ∈ c.gates, g.name = n ∧ ∃ inp ∈ g.inputs, inp ∈ S) :
    ∀ (l : List Gate), (∀ g ∈ l, g ∈ c.gates) →
      (∀ l1 g l2, l = l1 ++ g :: l2 → ∀ p ∈ c.gates, p.name ∈ g.inputs →
        p.name ∈ S → p ∈ l1) →
      (∀ n ∈ S, n ∈ l.map Gate.name) → ∀ n ∈ S, False := by
  intro l
  induction l with
  | nil =>
    intro _ _ hcov n hn
    have := hcov n hn
    simp at this
  | cons g0 l2 ih =>
    intro hmem hq hcov
    have hg0 : g0.name ∉ S := by
      intro hg0S
      obtain ⟨g, hg, hgname, inp, hinp, hinpS⟩ := hS g0.name hg0S
      have hgeq : g = g0 := name_inj c hnd g hg g0 (hmem g0 (List.mem_cons_self _ _)) hgname
      rw [hgeq] at hinp
      obtain ⟨p, hp, hpname, inp2, hinp2, hinp2S⟩ := hS inp hinpS
      have := hq [] g0 l2 rfl p hp (hpname ▸ hinp) (hpname ▸ hinpS)
      simp at this
    intro n hn
    refine ih (fun g hg => hmem g (List.mem_cons_of_mem _ hg)) ?_ ?_ n hn
    · intro l1 g l3 hsplit p hp hpin hpS
      have hq2 := hq (g0 :: l1) g l3 (by rw [hsplit]; rfl) p hp hpin hpS
      rcases List.mem_cons.mp hq2 with h | h
      · exact absurd (h ▸ hpS) hg0
      · exact h
    · intro n2 hn2
      have hthis := hcov n2 hn2
      rw [List.map_cons] at hthis
      rcases List.mem_cons.mp hthis with h | h
      · exact absurd (h ▸ hn2) hg0
      · exact h

theorem topo_sort_main (c : Circuit)
    (hnd : (c.gates.map Gate.name).Nodup) :
    (¬ hasCycle c → ∃ l, c.topological_sort = Except.ok l ∧ l.Perm c.gates ∧
      TopoOrdered c l) ∧
    (hasCycle c → ∃ r, c.topological_sort = Except.error r ∧ r ≠ [] ∧
      ∀ n, n ∈ r ↔ (n ∈ c.gates.map Gate.name ∧
        n ∉ (kahnRun c).2.1.map Gate.name)) := by
  obtain ⟨indeg2, sorted2, hrun, hinv⟩ := kahn_final c hnd
  have hS2nd : (sorted2.map Gate.name).Nodup := by
    have := hinv.nodup
    simpa using this
  have hS2sub : ∀ n ∈ sorted2.map Gate.name, n ∈ c.gates.map Gate.name := by
    intro n hn
    rw [List.mem_map] at hn
    obtain ⟨g, hg, rfl⟩ := hn
    exact List.mem_map_of_mem Gate.name (hinv.sortedMem g hg)
  have hzero2 : ∀ n ∈ sorted2.map Gate.name, indeg2 n = 0 := by
    intro n hn
    rw [List.mem_map] at hn
    obtain ⟨g, hg, rfl⟩ := hn
    rw [hinv.degEq g (hinv.sortedMem g hg)]
    have hrc : remCount c g (sorted2.map Gate.name) = 0 := by
      rw [remCount_zero_iff]
      intro inp hinp hk
      exact hinv.closed g hg inp hinp hk
    simp [hrc]
  have hpos : ∀ n ∈ c.gates.map Gate.name, n ∉ sorted2.map Gate.name →
      0 < indeg2 n := by
    intro n hnL hnS
    by_contra h0
    push_neg at h0
    rcases hinv.lowMem n hnL h0 with h | h
    · exact hnS h
    · simp at h
  have herrchar : ∀ n,
      n ∈ (c.gates.filter (fun g => 0 < indeg2 g.name)).map (fun g => g.name) ↔
        (n ∈ c.gates.map Gate.name ∧ n ∉ sorted2.map Gate.name) := by
    intro n
    constructor
    · intro hn
      rw [List.mem_map] at hn
      obtain ⟨g, hg, rfl⟩ := hn
      rw [List.mem_filter] at hg
      have hdeg : 0 < indeg2 g.name := by simpa using hg.2
      refine ⟨List.mem_map_of_mem Gate.name hg.1, ?_⟩
      intro hmem
      have := hzero2 g.name hmem
      omega
    · rintro ⟨hL, hnS⟩
      have hd := hpos n hL hnS
      rw [List.mem_map] at hL
      obtain ⟨g, hg, rfl⟩ := hL
      rw [List.mem_map]
      refine ⟨g, ?_, rfl⟩
      rw [List.mem_filter]
      exact ⟨hg, by simpa using hd⟩
  have htopo : TopoOrdered c sorted2 := hinv.ordered
  have hts : c.topological_sort =
      (if sorted2.length = c.gates.length then Except.ok sorted2
       else Except.error
         ((c.gates.filter (fun g => 0 < indeg2 g.name)).map (fun g => g.name))) := by
    rw [Circuit.topological_sort, hrun]
  by_cases hlen : sorted2.length = c.gates.length
  · have hsp : List.Subperm (sorted2.map Gate.name) (c.gates.map Gate.name) :=
      List.subperm_of_subset hS2nd hS2sub
    have hpermN : (sorted2.map Gate.name).Perm (c.gates.map Gate.name) :=
      List.Subperm.perm_of_length_le hsp (by
        rw [List.length_map, List.length_map]
        omega)
    have hgsub : ∀ g ∈ c.gates, g ∈ sorted2 := by
      intro g hg
      have : g.name ∈ sorted2.map Gate.name :=
        hpermN.mem_iff.mpr (List.mem_map_of_mem Gate.name hg)
      rw [List.mem_map] at this
      obtain ⟨g3, hg3, hname⟩ := this
      rw [← name_inj c hnd g3 (hinv.sortedMem g3 hg3) g hg hname]
      exact hg3
    have hperm : sorted2.Perm c.gates := by
      have hsp2 : List.Subperm sorted2 c.gates :=
        List.subperm_of_subset (List.Nodup.of_map Gate.name hS2nd)
          (fun g hg => hinv.sortedMem g hg)
      exact List.Subperm.perm_of_length_le hsp2 (by omega)
    constructor
    · intro _
      exact ⟨sorted2, by rw [hts, if_pos hlen], hperm, htopo⟩
    · intro hcyc
      exfalso
      obtain ⟨S, hSne, hSprop⟩ := hcyc
      obtain ⟨n0, hn0⟩ := List.exists_mem_of_ne_nil S hSne
      refine cycle_not_covered c hnd S hSprop sorted2 hinv.sortedMem
        (fun l1 g l2 hsp3 p hp hpin _ => htopo l1 g l2 hsp3 p hp hpin) ?_ n0 hn0
      intro n hn
      obtain ⟨g, hg, hgname, _⟩ := hSprop n hn
      have : n ∈ c.gates.map Gate.name := hgname ▸ List.mem_map_of_mem Gate.name hg
      exact hpermN.mem_iff.mpr this
  · have hmissing : ∃ n0, n0 ∈ c.gates.map Gate.name ∧ n0 ∉ sorted2.map Gate.name := by
      by_contra hall
      push_neg at hall
      have hsub2 : ∀ n ∈ c.gates.map Gate.name, n ∈ sorted2.map Gate.name := hall
      have hsp2 : List.Subperm (c.gates.map Gate.name) (sorted2.map Gate.name) :=
        List.subperm_of_subset hnd hsub2
      have h1 := List.Subperm.length_le hsp2
      have h2 := List.Subperm.length_le (List.subperm_of_subset hS2nd hS2sub)
      rw [List.length_map, List.length_map] at h1 h2
      omega
    have hcyc : hasCycle c := by
      refine ⟨(c.gates.filter (fun g => 0 < indeg2 g.name)).map (fun g => g.name),
        ?_, ?_⟩
      · obtain ⟨n0, hn0L, hn0S⟩ := hmissing
        intro hnil
        have := (herrchar n0).mpr ⟨hn0L, hn0S⟩
        rw [hnil] at this
        simp at this
      · intro n hn
        obtain ⟨hL, hnS⟩ := (herrchar n).mp hn
        rw [List.mem_map] at hL
        obtain ⟨g, hg, rfl⟩ := hL
        refine ⟨g, hg, rfl, ?_⟩
        have hd := hpos g.name (List.mem_map_of_mem Gate.name hg) hnS
        rw [hinv.degEq g hg] at hd
        have hrc : 0 < remCount c g (sorted2.map Gate.name) := by omega
        rw [remCount, List.length_pos] at hrc
        obtain ⟨inp, hinp⟩ := List.exists_mem_of_ne_nil _ hrc
        rw [List.mem_filter] at hinp
        have hkc := hinp.2
        simp at hkc
        have hk : isKey c inp = true := hkc.1
        have hns : inp ∉ sorted2.map Gate.name := by
          intro hmm
          rw [List.mem_map] at hmm
          obtain ⟨g4, hg4, he⟩ := hmm
          exact hkc.2 g4 hg4 he
        refine ⟨inp, hinp.1, ?_⟩
        exact (herrchar inp).mpr ⟨(isKey_iff c inp).mp hk, hns⟩
    constructor
    · intro hnc
      exact absurd hcyc hnc
    · intro _
      refine ⟨(c.gates.filter (fun g => 0 < indeg2 g.name)).map (fun g => g.name),
        by rw [hts, if_neg hlen], ?_, ?_⟩
      · obtain ⟨n0, hn0L, hn0S⟩ := hmissing
        intro hnil
        have := (herrchar n0).mpr ⟨hn0L, hn0S⟩
        rw [hnil] at this
        simp at this
      · intro n
        rw [hrun]
        exact herrchar n

/-- C7 (amended): for every circuit with unique gate names, if the gate
dependency graph is acyclic then `topological_sort` returns an ordering of
all the gates in which every gate appears after every gate producing one of
its inputs (ties are broken by the FIFO queue order, not declaration order —
see `fifo_not_declaration_order`); and if the circuit contains a gate cycle
it raises the cycle error naming exactly the gates that were never ordered. -/
theorem topological_sort_correct (c : Circuit)
    (hnd : (c.gates.map Gate.name).Nodup) :
    (¬ hasCycle c → ∃ l, c.topological_sort = Except.ok l ∧ l.Perm c.gates ∧
      TopoOrdered c l) ∧
    (hasCycle c → ∃ r, c.topological_sort = Except.error r ∧ r ≠ [] ∧
      ∀ n, n ∈ r ↔ (n ∈ c.gates.map Gate.name ∧
        n ∉ (kahnRun c).2.1.map Gate.name)) :=
  topo_sort_main c hnd

/-- Witness for C7 at the two-gate combinational loop. -/
theorem topological_sort_correct_witness :
    ∃ r, cycCirc.topological_sort = Except.error r ∧ r ≠ [] ∧
      ∀ n, n ∈ r ↔ (n ∈ cycCirc.gates.map Gate.name ∧
        n ∉ (kahnRun cycCirc).2.1.map Gate.name) :=
  (topological_sort_correct cycCirc (by decide)).2 ⟨["u", "v"], by decide, by decide⟩

/-! ## C8: the arity cap is a fatal error during encoding -/

theorem mapMO_isSome {A B : Type} (f : A → Option B) : ∀ (l : List A),
    (∀ a ∈ l, (f a).isSome = true) → ∃ bs, mapMO f l = some bs ∧
      bs.length = l.length := by
  intro l
  induction l with
  | nil => intro _; exact ⟨[], rfl, rfl⟩
  | cons a l ih =>
    intro h
    have ha := h a (List.mem_cons_self _ _)
    rw [Option.isSome_iff_exists] at ha
    obtain ⟨b, hb⟩ := ha
    obtain ⟨bs, hbs, hlen⟩ := ih (fun x hx => h x (List.mem_cons_of_mem _ hx))
    exact ⟨b :: bs, by rw [mapMO, hb, hbs], by simp [hlen]⟩

theorem epg_ok_of_small (ins ps : List BExpr) (hle : ins.length ≤ 2)
    (hp : ps.length = 2 ^ ins.length) :
    ∃ e, encode_parameterized_gate ins ps = Except.ok e := by
  match ins, hle with
  | [], _ =>
    match ps, hp with
    | [p0], _ => exact ⟨p0, rfl⟩
  | [a], _ =>
    match ps, hp with
    | [p0, p1], _ => exact ⟨.ite a p1 p0, rfl⟩
  | [a, b], _ =>
    match ps, hp with
    | [p0, p1, p2, p3], _ => exact ⟨.ite a (.ite b p3 p2) (.ite b p1 p0), rfl⟩

theorem epg_err_of_big (ins ps : List BExpr) (hgt : 2 < ins.length) :
    encode_parameterized_gate ins ps = Except.error
      ("Gates with " ++ toString ins.length ++
        " inputs not supported for parameterization") := by
  match ins, hgt with
  | a :: b :: c :: rest, _ => rfl

theorem efg_some (ins : List BExpr) (tt : TruthTable)
    (hc : ∀ cube ∈ tt.onset_cubes, cube.length ≤ ins.length) :
    ∃ e, encode_fixed_gate ins tt = some e := by
  by_cases h0 : tt.num_inputs = 0
  · exact ⟨_, by rw [encode_fixed_gate, if_pos h0]⟩
  · obtain ⟨ts, hts, _⟩ := cubes_sem (fun _ => false) ins tt.onset_cubes hc
    rw [encode_fixed_gate, if_neg h0, hts]
    match ts with
    | [] => exact ⟨_, rfl⟩
    | [t] => exact ⟨t, rfl⟩
    | t1 :: t2 :: ts2 => exact ⟨_, rfl⟩

theorem foldlM_except_cons {S A : Type} (f : S → A → Except String S) (st : S)
    (a : A) (l : List A) :
    (a :: l).foldlM f st =
      (match f st a with
       | Except.error e => Except.error e
       | Except.ok st2 => l.foldlM f st2) := by
  rw [List.foldlM_cons]
  cases f st a <;> rfl

theorem encImplFold_arity_error (implc : Circuit) (fix : List String) :
    ∀ (gs : List Gate) (st : EncSt),
      (∀ g ∈ gs, g ∈ implc.gates) →
      (∀ l1 g l2, gs = l1 ++ g :: l2 → ∀ inp ∈ g.inputs,
        (st.signals inp).isSome = true ∨ inp ∈ l1.map Gate.name) →
      (∀ g ∈ gs, fix.contains g.name = false →
        ∀ cube ∈ g.truth_table.onset_cubes, cube.length ≤ g.inputs.length) →
      (∃ g ∈ gs, fix.contains g.name = true ∧ 2 < g.inputs.length) →
      ∃ nn, 2 < nn ∧ gs.foldlM (encImplGate fix) st = Except.error
        ("Gates with " ++ toString nn ++ " inputs not supported for parameterization") := by
  intro gs
  induction gs with
  | nil =>
    intro st _ _ _ hbad
    obtain ⟨g, hg, _⟩ := hbad
    simp at hg
  | cons g0 gs ih =>
    intro st hmem hsig hcubes hbad
    have hsig0 : ∀ inp ∈ g0.inputs, (st.signals inp).isSome = true := by
      intro inp hinp
      rcases hsig [] g0 gs rfl inp hinp with h | h
      · exact h
      · simp at h
    obtain ⟨gins, hgins, hglen⟩ := mapMO_isSome st.signals g0.inputs hsig0
    rw [foldlM_except_cons]
    by_cases hfix : fix.contains g0.name
    · by_cases hbig : 2 < g0.inputs.length
      · refine ⟨g0.inputs.length, hbig, ?_⟩
        have herr : encImplGate fix st g0 = Except.error
            ("Gates with " ++ toString g0.inputs.length ++
              " inputs not supported for parameterization") := by
          rw [encImplGate, hgins]
          simp only [hfix, if_true]
          rw [epg_err_of_big _ _ (by omega)]
          rw [hglen]
        rw [herr]
      · push_neg at hbig
        obtain ⟨func, hfunc⟩ := epg_ok_of_small gins
            ((paramNames g0.name (2 ^ g0.num_inputs)).map BExpr.var)
            (by omega)
            (by
              rw [List.length_map, paramNames, List.length_map, List.length_range]
              rw [hglen, Gate.num_inputs])
        have hstep : encImplGate fix st g0 = Except.ok
            ⟨st.params ++ paramNames g0.name (2 ^ g0.num_inputs),
             st.param_info ++ [(g0.name, paramNames g0.name (2 ^ g0.num_inputs))],
             fun s => if s = g0.name then some (.var g0.name) else st.signals s,
             st.constraints ++ [.eq (.var g0.name) func]⟩ := by
          rw [encImplGate, hgins]
          simp only [hfix, if_true]
          rw [hfunc]
        rw [hstep]
        apply ih
        · exact fun g hg => hmem g (List.mem_cons_of_mem _ hg)
        · intro l1 g l2 hsplit inp hinp
          rcases hsig (g0 :: l1) g l2 (by rw [hsplit]; rfl) inp hinp with h | h
          · left
            simp only []
            by_cases he : inp = g0.name <;> simp [he, h]
          · rw [List.map_cons] at h
            rcases List.mem_cons.mp h with h2 | h2
            · left
              simp [h2]
            · right
              exact h2
        · exact fun g hg => hcubes g (List.mem_cons_of_mem _ hg)
        · obtain ⟨g, hg, hgfix, hglen2⟩ := hbad
          rcases List.mem_cons.mp hg with h | h
          · rw [h] at hgfix hglen2
            omega
          · exact ⟨g, h, hgfix, hglen2⟩
    · obtain ⟨func, hfunc⟩ := efg_some gins g0.truth_table (by
        intro cube hcu
        rw [hglen]
        exact hcubes g0 (List.mem_cons_self _ _) (by simpa using hfix) cube hcu)
      have hstep : encImplGate fix st g0 = Except.ok
          ⟨st.params, st.param_info,
           fun s => if s = g0.name then some (.var g0.name) else st.signals s,
           st.constraints ++ [.eq (.var g0.name) func]⟩ := by
        rw [encImplGate, hgins]
        have hfix2 : fix.contains g0.name = false := by simpa using hfix
        simp only [hfix2, Bool.false_eq_true, if_false]
        rw [hfunc]
      rw [hstep]
      apply ih
      · exact fun g hg => hmem g (List.mem_cons_of_mem _ hg)
      · intro l1 g l2 hsplit inp hinp
        rcases hsig (g0 :: l1) g l2 (by rw [hsplit]; rfl) inp hinp with h | h
        · left
          simp only []
          by_cases he : inp = g0.name <;> simp [he, h]
        · rw [List.map_cons] at h
          rcases List.mem_cons.mp h with h2 | h2
          · left
            simp [h2]
          · right
            exact h2
      · exact fun g hg => hcubes g (List.mem_cons_of_mem _ hg)
      · obtain ⟨g, hg, hgfix, hglen2⟩ := hbad
        rcases List.mem_cons.mp hg with h | h
        · rw [h] at hgfix
          rw [hgfix] at hfix
          simp at hfix
        · exact ⟨g, h, hgfix, hglen2⟩

/-- C8: for a well-formed rectification request whose fix-set contains a gate
with more than two inputs, `encode` fails with the arity ValueError while
building the formulas — before `cegis.run`, and hence any solver, is ever
invoked (`encode` involves no oracle at all). -/
theorem arity_cap_encoding_error (implc specc : Circuit) (fix : List String)
    (hnd : (implc.gates.map Gate.name).Nodup)
    (hPI : sameSet implc.primary_inputs specc.primary_inputs = true)
    (hPO : sameSet implc.primary_outputs specc.primary_outputs = true)
    (hacyc : ¬ hasCycle implc)
    (hwf : ∀ g ∈ implc.gates, ∀ inp ∈ g.inputs,
      implc.primary_inputs.contains inp = true ∨ ∃ g2 ∈ implc.gates, g2.name = inp)
    (hcubes : ∀ g ∈ implc.gates, fix.contains g.name = false →
      ∀ cube ∈ g.truth_table.onset_cubes, cube.length ≤ g.inputs.length)
    (hbad : ∃ g ∈ implc.gates, fix.contains g.name = true ∧ 2 < g.inputs.length) :
    ∃ nn, 2 < nn ∧ encode implc specc fix = Except.error
      ("Gates with " ++ toString nn ++ " inputs not supported for parameterization") := by
  obtain ⟨order, hord, hperm, htopo⟩ := (topo_sort_main implc hnd).1 hacyc
  have hfold := encImplFold_arity_error implc fix order
    (⟨[], [],
      fun s => if implc.primary_inputs.contains s then some (.var s) else none,
      []⟩ : EncSt)
    (fun g hg => hperm.mem_iff.mp hg)
    (by
      intro l1 g l2 hsplit inp hinp
      have hg : g ∈ implc.gates := hperm.mem_iff.mp (by rw [hsplit]; simp)
      rcases hwf g hg inp hinp with h | ⟨g2, hg2, hname⟩
      · left
        simp only []
        rw [h]
        simp
      · right
        have hmem := htopo l1 g l2 hsplit g2 hg2 (hname ▸ hinp)
        exact hname ▸ List.mem_map_of_mem Gate.name hmem)
    (fun g hg => hcubes g (hperm.mem_iff.mp hg))
    (by
      obtain ⟨g, hg, h1, h2⟩ := hbad
      exact ⟨g, hperm.symm.mem_iff.mp hg, h1, h2⟩)
  obtain ⟨nn, hnn, herr⟩ := hfold
  refine ⟨nn, hnn, ?_⟩
  rw [encode]
  simp only [hPI, hPO, Bool.not_true, Bool.false_eq_true, if_false]
  rw [hord]
  simp only [herr]

/-- Witness for C8 at a 3-input gate instance. -/
theorem arity_cap_encoding_error_witness :
    ∃ nn, 2 < nn ∧ encode impl3 spec3 ["f"] = Except.error
      ("Gates with " ++ toString nn ++ " inputs not supported for parameterization") := by
  have hacyc3 : ¬ hasCycle impl3 := by
    rintro ⟨S, hne, hp⟩
    obtain ⟨n0, hn0⟩ := List.exists_mem_of_ne_nil S hne
    obtain ⟨g, hg, hgname, inp, hinp, hinpS⟩ := hp n0 hn0
    obtain ⟨g2, hg2, hg2name, _⟩ := hp inp hinpS
    have hg2e : g2 = ⟨"f", ["x", "y", "z"], ⟨3, [['1', '1', '1']]⟩⟩ := by
      simpa [impl3] using hg2
    have hge : g = ⟨"f", ["x", "y", "z"], ⟨3, [['1', '1', '1']]⟩⟩ := by
      simpa [impl3] using hg
    rw [hge] at hinp
    rw [hg2e] at hg2name
    simp at hinp
    rcases hinp with h | h | h <;> (rw [← hg2name] at h; simp at h)
  exact arity_cap_encoding_error impl3 spec3 ["f"] (by decide) (by decide) (by decide)
    hacyc3 (by decide) (by decide) (by decide)

/-! ## C2: the AND-vs-OR instance succeeds with the OR decode -/

theorem encAB_shape :
    encAB.params = ["p_f_0", "p_f_1", "p_f_2", "p_f_3"] ∧
    encAB.param_info = [("f", ["p_f_0", "p_f_1", "p_f_2", "p_f_3"])] ∧
    encAB.input_names = ["a", "b"] ∧
    encAB.inputs = ["a", "b"] ∧
    encAB.behavior = BExpr.and
      (.eq (.var "f") (.ite (.var "a") (.ite (.var "b") (.var "p_f_3") (.var "p_f_2"))
        (.ite (.var "b") (.var "p_f_1") (.var "p_f_0"))))
      (.and (.eq (.var "f_spec") (.or (.var "a") (.or (.var "b") (.const false))))
        (.const true)) ∧
    encAB.correctness = .eq (.var "f") (.var "f_spec") := by
  refine ⟨rfl, rfl, rfl, rfl, rfl, rfl⟩

theorem evalB_encAB_behavior (m : String → Bool) :
    evalB m encAB.behavior = ((m "f" ==
      (if m "a" then (if m "b" then m "p_f_3" else m "p_f_2")
       else (if m "b" then m "p_f_1" else m "p_f_0"))) &&
      (m "f_spec" == (m "a" || m "b"))) := by
  rw [encAB_shape.2.2.2.2.1]
  simp [evalB]

theorem evalB_orCon (m : String → Bool) (x y : Bool) :
    (evalB m (orCon x y) = true) ↔ m (orParamName x y) = (x || y) := by
  cases x <;> cases y <;> simp [orCon, orParamName, evalB]

theorem evalB_encAB_pins (m c : String → Bool)
    (h : evalB m (z3AndL (encAB.params.map
      (fun p => BExpr.eq (.var p) (.const (c p))))) = true) :
    m "p_f_0" = c "p_f_0" ∧ m "p_f_1" = c "p_f_1" ∧
    m "p_f_2" = c "p_f_2" ∧ m "p_f_3" = c "p_f_3" := by
  rw [encAB_shape.1] at h
  simp [z3AndL, evalB] at h
  exact ⟨h.1, h.2.1, h.2.2.1, h.2.2.2⟩

theorem c2_verify_model (c m : String → Bool)
    (hb : evalB m encAB.behavior = true)
    (hp : evalB m (z3AndL (encAB.params.map
      (fun p => BExpr.eq (.var p) (.const (c p))))) = true)
    (hn : evalB m (.not encAB.correctness) = true) :
    ¬ c (orParamName (m "a") (m "b")) = (m "a" || m "b") := by
  obtain ⟨h0, h1, h2, h3⟩ := evalB_encAB_pins m c hp
  rw [evalB_encAB_behavior] at hb
  rw [encAB_shape.2.2.2.2.2] at hn
  simp [evalB] at hb hn
  intro hcontra
  cases ha : m "a" <;> cases hbb : m "b" <;>
    (rw [ha, hbb] at hb hcontra;
     simp [orParamName] at hcontra;
     simp at hb;
     rcases hb with ⟨hf, hfs⟩;
     apply hn;
     rw [hf, hfs])
  · rw [h0]; exact hcontra
  · rw [h1]; exact hcontra
  · rw [h2]; exact hcontra
  · rw [h3]; exact hcontra

theorem c2_witness_model_sat (x y : Bool) (c : String → Bool)
    (hxy : ¬ c (orParamName x y) = (x || y)) :
    evalB (orWitnessModel x y c) encAB.behavior = true ∧
    evalB (orWitnessModel x y c) (z3AndL (encAB.params.map
      (fun p => BExpr.eq (.var p) (.const (c p))))) = true ∧
    evalB (orWitnessModel x y c) (.not encAB.correctness) = true := by
  refine ⟨?_, ?_, ?_⟩
  · rw [evalB_encAB_behavior]
    cases x <;> cases y <;> simp [orWitnessModel]
  · rw [encAB_shape.1]
    cases x <;> cases y <;> simp [z3AndL, evalB, orWitnessModel]
  · rw [encAB_shape.2.2.2.2.2]
    cases x <;> cases y <;>
      (simp [evalB, orWitnessModel];
       simp [orParamName] at hxy;
       simpa using hxy)

theorem mkIV_encAB (m : String → Bool) : mkIV encAB m = orIV (m "a") (m "b") := rfl

theorem c2_eval_step (x y : Bool) :
    ∃ vals w, evaluate_circuit encAB.impl_circuit (orIV x y) = Except.ok vals ∧
      evaluate_circuit encAB.spec_circuit (orIV x y) = Except.ok w ∧
      buildConstraints encAB.impl_circuit encAB.spec_circuit vals encAB.param_info =
        Except.ok [orCon x y] := by
  cases x <;> cases y <;> exact ⟨_, _, rfl, rfl, rfl⟩

theorem c2_runStep (oracle : List BExpr → Option (String → Bool))
    (hval : OracleValid oracle) (ps : List (Bool × Bool)) (it : Nat) :
    (∃ c, runStep oracle encAB it (ps.map orConP) (ps.map orIVP) =
        .done { success := true, model := some c, iterations := it,
                test_vectors := some (ps.map orIVP), reason := none } ∧
        ∀ x y : Bool, c (orParamName x y) = (x || y)) ∨
    (∃ x y : Bool, (x, y) ∉ ps ∧
      runStep oracle encAB it (ps.map orConP) (ps.map orIVP) =
        .cont (ps.map orConP ++ [orCon x y]) (ps.map orIVP ++ [orIV x y])) := by
  cases h1 : oracle (ps.map orConP) with
  | none =>
    exfalso
    obtain ⟨e, he, hef⟩ := (hval (ps.map orConP)).2 h1 (fun s => !(s == "p_f_0"))
    obtain ⟨p, _, rfl⟩ := List.mem_map.mp he
    have : evalB (fun s => !(s == "p_f_0")) (orConP p) = true := by
      rw [orConP, evalB_orCon]
      cases hp1 : p.1 <;> cases hp2 : p.2 <;> decide
    rw [this] at hef
    exact Bool.true_eq_false.mp hef
  | some c =>
    have hcs : ∀ p ∈ ps, c (orParamName p.1 p.2) = (p.1 || p.2) := by
      intro p hp
      have := (hval (ps.map orConP)).1 c h1 (orConP p)
        (List.mem_map.mpr ⟨p, hp, rfl⟩)
      rw [orConP, evalB_orCon] at this
      exact this
    cases h2 : oracle [encAB.behavior,
        z3AndL (encAB.params.map (fun p => BExpr.eq (.var p) (.const (c p)))),
        .not encAB.correctness] with
    | none =>
      left
      refine ⟨c, ?_, ?_⟩
      · rw [runStep]
        simp only [h1, h2]
      · intro x y
        by_contra hxy
        obtain ⟨hb, hp, hn⟩ := c2_witness_model_sat x y c hxy
        obtain ⟨e, he, hef⟩ := (hval _).2 h2 (orWitnessModel x y c)
        simp only [List.mem_cons, List.not_mem_nil, or_false] at he
        rcases he with rfl | rfl | rfl
        · rw [hb] at hef; exact Bool.true_eq_false.mp hef
        · rw [hp] at hef; exact Bool.true_eq_false.mp hef
        · rw [hn] at hef; exact Bool.true_eq_false.mp hef
    | some cm =>
      right
      have hsat := (hval _).1 cm h2
      have hb := hsat encAB.behavior (by simp)
      have hpin := hsat (z3AndL (encAB.params.map
        (fun p => BExpr.eq (.var p) (.const (c p))))) (by simp)
      have hnc := hsat (.not encAB.correctness) (by simp)
      have hxy := c2_verify_model c cm hb hpin hnc
      refine ⟨cm "a", cm "b", ?_, ?_⟩
      · intro hmem
        exact hxy (hcs (cm "a", cm "b") hmem)
      · obtain ⟨vals, w, he1, he2, hbc⟩ := c2_eval_step (cm "a") (cm "b")
        rw [runStep]
        simp only [h1, h2, mkIV_encAB, he1, he2, hbc]
        rfl

theorem c2_ps_le (ps : List (Bool × Bool)) (h : ps.Nodup) : ps.length ≤ 4 := by
  have hc := h.length_le_card
  have h4 : Fintype.card (Bool × Bool) = 4 := by simp
  omega

theorem orIVP_injective : Function.Injective orIVP := by
  intro p q h
  cases p with
  | mk a b =>
    cases q with
    | mk a2 b2 =>
      simp only [orIVP, orIV] at h
      simp at h
      simp [h.1, h.2]

theorem c2_loop (oracle : List BExpr → Option (String → Bool))
    (hval : OracleValid oracle) (maxIter : Nat) :
    ∀ (fuel : Nat) (ps : List (Bool × Bool)) (it : Nat), ps.Nodup →
    5 ≤ fuel + ps.length →
    ∃ (r : RunResult) (c : String → Bool),
      runLoop oracle encAB maxIter fuel it (ps.map orConP) (ps.map orIVP) =
        Except.ok r ∧
      r.success = true ∧ r.model = some c ∧
      (∀ x y : Bool, c (orParamName x y) = (x || y)) ∧
      (∃ l, r.test_vectors = some l ∧ l.Nodup ∧ l.length ≤ 4) ∧
      r.iterations + ps.length ≤ it + 4 := by
  intro fuel
  induction fuel with
  | zero =>
    intro ps it hnd hge
    exfalso
    have := c2_ps_le ps hnd
    omega
  | succ n ih =>
    intro ps it hnd hge
    rcases c2_runStep oracle hval ps it with ⟨c, hstep, hall⟩ | ⟨x, y, hfresh, hstep⟩
    · refine ⟨RunResult.mk true (some c) it (some (ps.map orIVP)) none, c,
        ?_, rfl, rfl, hall, ⟨ps.map orIVP, rfl, ?_, ?_⟩, ?_⟩
      · rw [runLoop]
        simp only [hstep]
      · exact hnd.map orIVP_injective
      · rw [List.length_map]
        exact c2_ps_le ps hnd
      · have := c2_ps_le ps hnd
        simp only []
        omega
    · have hnd2 : (ps ++ [(x, y)]).Nodup := by
        rw [List.nodup_append]
        refine ⟨hnd, List.nodup_singleton _, ?_⟩
        intro a ha hb
        simp at hb
        rw [hb] at ha
        exact hfresh ha
      obtain ⟨r, c, hrun, hs, hm, hall, htv, hit⟩ :=
        ih (ps ++ [(x, y)]) (it + 1) hnd2 (by simp; omega)
      rw [List.map_append, List.map_append] at hrun
      refine ⟨r, c, ?_, hs, hm, hall, htv, ?_⟩
      · rw [runLoop]
        simp only [hstep]
        exact hrun
      · simp at hit
        omega

/-- C2 (corrected): for the end-to-end instance impl `f = AND(a, b)` versus
spec `f = OR(a, b)` with fix-set `{f}`, under any valid oracle and an
iteration budget of at least five, `cegis.run` terminates SUCCESS with a
model decoding gate `f` to the OR parameter vector, within at most five
iterations, and its counterexample list is duplicate-free of length at most
four — not at most two, as the spec's two-counterexample bound claims. -/
theorem and_or_rectification_success (oracle : List BExpr → Option (String → Bool))
    (hval : OracleValid oracle) (maxIter : Nat) (hmax : 5 ≤ maxIter) :
    ∃ (r : RunResult) (c : String → Bool) (l : List (List (String × Bool))),
      cegis.run oracle encAB maxIter = Except.ok r ∧
      r.success = true ∧
      r.model = some c ∧
      extract_solution c encAB.param_info = [("f", ([false, true, true, true], "OR"))] ∧
      r.test_vectors = some l ∧ l.Nodup ∧ l.length ≤ 4 ∧
      r.iterations ≤ 5 := by
  obtain ⟨r, c, hrun, hs, hm, hall, ⟨l, htv, hl1, hl2⟩, hit⟩ :=
    c2_loop oracle hval maxIter maxIter [] 1 List.nodup_nil (by simpa using hmax)
  have h0 : c "p_f_0" = false := hall false false
  have h1 : c "p_f_1" = true := hall false true
  have h2 : c "p_f_2" = true := hall true false
  have h3 : c "p_f_3" = true := hall true true
  refine ⟨r, c, l, hrun, hs, hm, ?_, htv, hl1, hl2, by simp at hit; omega⟩
  rw [encAB_shape.2.1]
  simp [extract_solution, h0, h1, h2, h3]
  rfl

theorem and_or_rectification_success_witness :
    ∃ (r : RunResult) (c : String → Bool) (l : List (List (String × Bool))),
      cegis.run bruteOracle encAB 5 = Except.ok r ∧
      r.success = true ∧
      r.model = some c ∧
      extract_solution c encAB.param_info = [("f", ([false, true, true, true], "OR"))] ∧
      r.test_vectors = some l ∧ l.Nodup ∧ l.length ≤ 4 ∧
      r.iterations ≤ 5 :=
  and_or_rectification_success bruteOracle bruteOracle_valid 5 (by decide)
